import Mathlib

/-!
# sunjar: the lexer (`src/lexer/lexer.go`) and the syntax tree (`src/ast/ast.go`)

A shallow embedding of the tokenizer and of the tree model.  A Go `string` is a sequence of bytes; a
byte is modelled as a natural number (real inputs only hold values below 256)
and a string as `List Nat`.  The cursor fields are Go `int`s and are modelled
as unbounded naturals: each `readChar` adds one to them.

The methods mutate the receiver; here they return the new lexer state.  The
loops are run with a fuel bound and slicing is fallible, so a method that would
not return, or would fail a bounds check, yields `none`.
-/

namespace Sunjar

/-- Modelled from the spec: the token package (`src/token`) is not among the
sources.  Section 6 of the specification lists the kinds of token: illegal,
end-of-input, identifier, integer, float, string, the operator and punctuation
symbols, and one kind per reserved keyword.  The constructor names are the
constants `lexer.go` refers to. -/
inductive TokenType where
  | ILLEGAL | EOF | IDENT | INT | FLOAT | STRING
  | ASSIGN | PLUS | MINUS | BANG | ASTERISK | SLASH
  | LT | GT | EQ | NOT_EQ
  | COMMA | SEMICOLON | COLON
  | LPAREN | RPAREN | LBRACE | RBRACE | LBRACKET | RBRACKET
  | FUNCTION | VAR | RETURN | IF | ELSE | TRUE | FALSE | FOR
  deriving DecidableEq, Repr

open TokenType

/-- Modelled from the spec: `token.Token` of the missing token package, a kind
and a literal (`token.Token{Type: ..., Literal: ...}` in `lexer.go`).  The field
`Type` is spelled `Typ`. -/
structure Token where
  Typ : TokenType
  Literal : List Nat
  deriving DecidableEq, Repr

/-- The `Lexer` struct. -/
structure Lexer where
  input : List Nat
  position : Nat
  readPosition : Nat
  currentChar : Nat
  deriving DecidableEq, Repr

/-- Go's conversion `string(ch)` of a byte `ch`: the UTF-8 encoding of the code
point `ch`.  It is the byte itself below 0x80 and two bytes from 0x80 on. -/
def byteToString (ch : Nat) : List Nat :=
  if ch < 128 then [ch] else [192 + ch / 64, 128 + ch % 64]

/-- The slice expression `s[lo:hi]`, which fails unless `lo <= hi <= len(s)`. -/
def slice (s : List Nat) (lo hi : Nat) : Option (List Nat) :=
  if lo ≤ hi ∧ hi ≤ s.length then some ((s.drop lo).take (hi - lo)) else none

/-- The method `readChar`. -/
def readChar (l : Lexer) : Lexer :=
  { l with
    currentChar := if h : l.readPosition < l.input.length then l.input[l.readPosition] else 0
    position := l.readPosition
    readPosition := l.readPosition + 1 }

/-- The constructor `New`. -/
def New (input : List Nat) : Lexer :=
  readChar { input := input, position := 0, readPosition := 0, currentChar := 0 }

/-- The method `peekChar`; it leaves the lexer as it is. -/
def peekChar (l : Lexer) : Nat :=
  if h : l.readPosition < l.input.length then l.input[l.readPosition] else 0

/-- The function `newToken`. -/
def newToken (tokenType : TokenType) (ch : Nat) : Token :=
  { Typ := tokenType, Literal := byteToString ch }

/-- The function `isLetter`: `a`..`z`, `A`..`Z` or `_`. -/
def isLetter (character : Nat) : Bool :=
  (97 ≤ character && character ≤ 122) || (65 ≤ character && character ≤ 90) || character == 95

/-- The function `isDigit`: `0`..`9` or `.`. -/
def isDigit (character : Nat) : Bool :=
  (48 ≤ character && character ≤ 57) || character == 46

/-- The loop condition of `skipWhitespace`: space, newline, tab or carriage return. -/
def isWhitespace (c : Nat) : Bool :=
  c == 32 || c == 10 || c == 9 || c == 13

/-- The loop `for cond(l.currentChar) { l.readChar() }` shared by `skipWhitespace`,
`readIdentifier` and `readNumber`, with a bound on the number of iterations. -/
def readWhile (cond : Nat → Bool) : Nat → Lexer → Option Lexer
  | 0, _ => none
  | fuel + 1, l => if cond l.currentChar then readWhile cond fuel (readChar l) else some l

/-- The loop of `readString`: read a character, stop on `"` or on the sentinel 0. -/
def readStringLoop : Nat → Lexer → Option Lexer
  | 0, _ => none
  | fuel + 1, l =>
    let l1 := readChar l
    if l1.currentChar = 34 ∨ l1.currentChar = 0 then some l1 else readStringLoop fuel l1

/-- The method `skipWhitespace`. -/
def skipWhitespace (l : Lexer) : Option Lexer :=
  readWhile isWhitespace (l.input.length + 2) l

/-- The method `readString`: the literal and the lexer after the loop. -/
def readString (l : Lexer) : Option (List Nat × Lexer) :=
  let position := l.position + 1
  match readStringLoop (l.input.length + 2) l with
  | none => none
  | some l1 =>
    match slice l1.input position l1.position with
    | none => none
    | some s => some (s, l1)

/-- The method `readNumber`. -/
def readNumber (l : Lexer) : Option (List Nat × Lexer) :=
  let position := l.position
  match readWhile isDigit (l.input.length + 2) l with
  | none => none
  | some l1 =>
    match slice l1.input position l1.position with
    | none => none
    | some s => some (s, l1)

/-- The method `readIdentifier`. -/
def readIdentifier (l : Lexer) : Option (List Nat × Lexer) :=
  let position := l.position
  match readWhile isLetter (l.input.length + 2) l with
  | none => none
  | some l1 =>
    match slice l1.input position l1.position with
    | none => none
    | some s => some (s, l1)

/-- The `switch` of `NextToken`, entered after `skipWhitespace`.  The keyword
lookup `token.LookupIdent` of the missing token package is the parameter
`LookupIdent`.  The result is the token and the lexer as the call leaves it. -/
def nextTokenSwitch (LookupIdent : List Nat → TokenType) (l : Lexer) : Option (Token × Lexer) :=
  let c := l.currentChar
  if c = 34 then -- '"'
    match readString l with
    | none => none
    | some (s, l1) => some ({ Typ := STRING, Literal := s }, readChar l1)
  else if c = 61 then -- '='
    if peekChar l = 61 then
      let ch := l.currentChar
      let l1 := readChar l
      let literal := byteToString ch ++ byteToString l1.currentChar
      some ({ Typ := EQ, Literal := literal }, readChar l1)
    else some (newToken ASSIGN l.currentChar, readChar l)
  else if c = 59 then some (newToken SEMICOLON l.currentChar, readChar l) -- ';'
  else if c = 40 then some (newToken LPAREN l.currentChar, readChar l) -- '('
  else if c = 41 then some (newToken RPAREN l.currentChar, readChar l) -- ')'
  else if c = 44 then some (newToken COMMA l.currentChar, readChar l) -- ','
  else if c = 43 then some (newToken PLUS l.currentChar, readChar l) -- '+'
  else if c = 123 then some (newToken LBRACE l.currentChar, readChar l) -- '{'
  else if c = 125 then some (newToken RBRACE l.currentChar, readChar l) -- '}'
  else if c = 91 then some (newToken LBRACKET l.currentChar, readChar l) -- '['
  else if c = 93 then some (newToken RBRACKET l.currentChar, readChar l) -- ']'
  else if c = 58 then some (newToken COLON l.currentChar, readChar l) -- ':'
  else if c = 45 then some (newToken MINUS l.currentChar, readChar l) -- '-'
  else if c = 33 then -- '!'
    if peekChar l = 61 then
      let ch := l.currentChar
      let l1 := readChar l
      let literal := byteToString ch ++ byteToString l1.currentChar
      some ({ Typ := NOT_EQ, Literal := literal }, readChar l1)
    else some (newToken BANG l.currentChar, readChar l)
  else if c = 47 then some (newToken SLASH l.currentChar, readChar l) -- '/'
  else if c = 42 then some (newToken ASTERISK l.currentChar, readChar l) -- '*'
  else if c = 60 then some (newToken LT l.currentChar, readChar l) -- '<'
  else if c = 62 then some (newToken GT l.currentChar, readChar l) -- '>'
  else if c = 0 then some ({ Typ := EOF, Literal := [] }, readChar l)
  else if isLetter l.currentChar then
    match readIdentifier l with
    | none => none
    | some (s, l1) => some ({ Typ := LookupIdent s, Literal := s }, l1)
  else if isDigit l.currentChar then
    match readNumber l with
    | none => none
    | some (s, l1) =>
      if 46 ∈ s then some ({ Typ := FLOAT, Literal := s }, l1) -- strings.Contains(s, ".")
      else some ({ Typ := INT, Literal := s }, l1)
  else some (newToken ILLEGAL l.currentChar, readChar l)

/-- The method `NextToken`. -/
def NextToken (LookupIdent : List Nat → TokenType) (l : Lexer) : Option (Token × Lexer) :=
  match skipWhitespace l with
  | none => none
  | some l1 => nextTokenSwitch LookupIdent l1

/-- The first `k` calls of `NextToken` on a lexer: the tokens they return, in
order, and the lexer after the last call. -/
def nextTokens (LookupIdent : List Nat → TokenType) : Nat → Lexer → Option (List Token × Lexer)
  | 0, l => some ([], l)
  | k + 1, l =>
    match NextToken LookupIdent l with
    | none => none
    | some (t, l1) =>
      match nextTokens LookupIdent k l1 with
      | none => none
      | some (ts, l2) => some (t :: ts, l2)

/-- Call `NextToken` until it returns an `EOF` token, at most `fuel + 1` times:
the tokens returned, the `EOF` token included. -/
def tokensUntilEOF (LookupIdent : List Nat → TokenType) : Nat → Lexer → Option (List Token)
  | fuel, l =>
    match NextToken LookupIdent l with
    | none => none
    | some (t, l1) =>
      if t.Typ = EOF then some [t]
      else
        match fuel with
        | 0 => none
        | fuel + 1 =>
          match tokensUntilEOF LookupIdent fuel l1 with
          | none => none
          | some ts => some (t :: ts)

/-- The token sequence of an input: `New`, then `NextToken` until `EOF`. -/
def tokenize (LookupIdent : List Nat → TokenType) (input : List Nat) : Option (List Token) :=
  tokensUntilEOF LookupIdent input.length (New input)

/-- The bytes of an ASCII string literal, for writing inputs down. -/
def ascii (s : String) : List Nat := s.data.map Char.toNat

/-- A keyword lookup used for concrete runs: `var` is a keyword, the rest are identifiers. -/
def lookupVar (s : List Nat) : TokenType := if s = [118, 97, 114] then VAR else IDENT

/-- The operator and punctuation symbols, each with the kind of its token. -/
def symbolTable : List (List Nat × TokenType) :=
  [(ascii "+", PLUS), (ascii "-", MINUS), (ascii "*", ASTERISK), (ascii "/", SLASH),
   (ascii "<", LT), (ascii ">", GT), (ascii "(", LPAREN), (ascii ")", RPAREN),
   (ascii "\x7b", LBRACE), (ascii "\x7d", RBRACE), (ascii "[", LBRACKET), (ascii "]", RBRACKET),
   (ascii ",", COMMA), (ascii ";", SEMICOLON), (ascii ":", COLON), (ascii "=", ASSIGN),
   (ascii "!", BANG), (ascii "==", EQ), (ascii "!=", NOT_EQ)]

/-! ## The lexer seen from its unread input

A lexer made by `New` and advanced by `readChar` is determined by its input and
its position: `atPos input p`.  What `NextToken` does there depends on the
unread input `input.drop p` alone, and `scan` says what.  -/

/-- The lexer over `input` whose cursor stands at `p`. -/
def atPos (input : List Nat) (p : Nat) : Lexer :=
  { input := input, position := p, readPosition := p + 1, currentChar := (input.drop p).headD 0 }

/-- The condition under which the loop of `readString` goes on. -/
def inString (c : Nat) : Bool := c != 34 && c != 0

/-- The kind `NextToken` gives a character that is one token by itself. -/
def singleKind (c : Nat) : TokenType :=
  if c = 59 then SEMICOLON else if c = 40 then LPAREN else if c = 41 then RPAREN
  else if c = 44 then COMMA else if c = 43 then PLUS else if c = 123 then LBRACE
  else if c = 125 then RBRACE else if c = 91 then LBRACKET else if c = 93 then RBRACKET
  else if c = 58 then COLON else if c = 45 then MINUS else if c = 47 then SLASH
  else if c = 42 then ASTERISK else if c = 60 then LT else if c = 62 then GT
  else ILLEGAL

/-- The token that starts the unread input `r` (which starts with no
whitespace) and the number of positions the cursor moves. -/
def scanSwitch (LookupIdent : List Nat → TokenType) (r : List Nat) : Token × Nat :=
  match r with
  | [] => (⟨EOF, []⟩, 1)
  | c :: t =>
    if c = 34 then (⟨STRING, t.takeWhile inString⟩, (t.takeWhile inString).length + 2)
    else if c = 61 then (if t.headD 0 = 61 then (⟨EQ, [61, 61]⟩, 2) else (⟨ASSIGN, [61]⟩, 1))
    else if c = 33 then (if t.headD 0 = 61 then (⟨NOT_EQ, [33, 61]⟩, 2) else (⟨BANG, [33]⟩, 1))
    else if c = 0 then (⟨EOF, []⟩, 1)
    else if isLetter c then
      (⟨LookupIdent (r.takeWhile isLetter), r.takeWhile isLetter⟩, (r.takeWhile isLetter).length)
    else if isDigit c then
      (⟨if 46 ∈ r.takeWhile isDigit then FLOAT else INT, r.takeWhile isDigit⟩,
        (r.takeWhile isDigit).length)
    else (⟨singleKind c, byteToString c⟩, 1)

/-- The token that starts the unread input `r`, after its leading whitespace,
and the number of positions the cursor moves. -/
def scan (LookupIdent : List Nat → TokenType) (r : List Nat) : Token × Nat :=
  ((scanSwitch LookupIdent (r.dropWhile isWhitespace)).1,
    (r.takeWhile isWhitespace).length + (scanSwitch LookupIdent (r.dropWhile isWhitespace)).2)

/-- The tokens that the first `k` calls of `NextToken` take from the unread input
`r`, and the number of positions the cursor moves in all. -/
def scanN (LookupIdent : List Nat → TokenType) : Nat → List Nat → List Token × Nat
  | 0, _ => ([], 0)
  | k + 1, r =>
    ((scan LookupIdent r).1 :: (scanN LookupIdent k (r.drop (scan LookupIdent r).2)).1,
      (scan LookupIdent r).2 + (scanN LookupIdent k (r.drop (scan LookupIdent r).2)).2)

/-! ## Lexemes and their layout -/

/-- An operator or punctuation symbol. -/
def IsSymbol (x : List Nat) : Prop := x ∈ symbolTable.map Prod.fst

/-- A non-empty run of letters and underscores. -/
def IsLetterRun (x : List Nat) : Prop := x ≠ [] ∧ ∀ c ∈ x, isLetter c = true

/-- A non-empty run of digits and dots. -/
def IsDigitRun (x : List Nat) : Prop := x ≠ [] ∧ ∀ c ∈ x, isDigit c = true

/-- A lexeme: a symbol, a run of letters and underscores, or a run of digits and dots. -/
def IsLexeme (x : List Nat) : Prop := IsSymbol x ∨ IsLetterRun x ∨ IsDigitRun x

/-- A run of whitespace characters, possibly empty. -/
def IsWhitespaceRun (w : List Nat) : Prop := ∀ c ∈ w, isWhitespace c = true

/-- Two neighbouring lexemes that would merge when nothing stands between them:
two letter runs, two digit runs, or `=` or `!` before a lexeme that starts with `=`. -/
def CanMerge (x y : List Nat) : Prop :=
  (IsLetterRun x ∧ IsLetterRun y) ∨ (IsDigitRun x ∧ IsDigitRun y)
    ∨ ((x = [61] ∨ x = [33]) ∧ y.head? = some 61)

/-- The text of a list of lexemes, each followed by a run of whitespace. -/
def layout : List (List Nat × List Nat) → List Nat
  | [] => []
  | (x, w) :: rest => x ++ w ++ layout rest

/-- Lexemes, each followed by a run of whitespace that is empty only where the
lexeme cannot merge with the next one; the run after the last lexeme is free. -/
def WellSpaced : List (List Nat × List Nat) → Prop
  | [] => True
  | [(x, w)] => IsLexeme x ∧ IsWhitespaceRun w
  | (x, w) :: (y, v) :: rest =>
    IsLexeme x ∧ IsWhitespaceRun w ∧ (w = [] → ¬ CanMerge x y) ∧ WellSpaced ((y, v) :: rest)

/-- The kind of the token that `NextToken` returns for a lexeme tokenized alone. -/
def kindAlone (LookupIdent : List Nat → TokenType) (x : List Nat) : TokenType :=
  match NextToken LookupIdent (New x) with
  | some (t, _) => t.Typ
  | none => ILLEGAL

/-- What follows the lexeme `x` does not extend it. -/
def Clear (x tail : List Nat) : Prop :=
  (IsLetterRun x → ∀ c, tail.head? = some c → isLetter c = false)
    ∧ (IsDigitRun x → ∀ c, tail.head? = some c → isDigit c = false)
    ∧ ((x = [61] ∨ x = [33]) → tail.head? ≠ some 61)

/-! ## The syntax tree (`src/ast/ast.go`)

The interfaces `Statement` and `Expression` are the inductive types of the
structs that implement them.  A field the code tests against `nil` before use
is an `Option`; a field the code dereferences without a test (`Name`,
`Condition`, `Consequence`, `Body`, `Left`, `Right`, `Function`, `Index`) is
present by type.  Strings are byte lists, as in the lexer. -/

/-- The struct `Identifier`. -/
structure Identifier where
  Token : Token
  Value : List Nat

mutual
/-- The structs that implement the interface `Expression`.  `IntegerLiteral.Value`
is the `int64`, `FloatLiteral.Value` stands for the 64 bits of the `float64`,
and `HashLiteral.Pairs` lists the entries of the map in the order in which a
`range` over it visits them. -/
inductive Expression where
  | Identifier (i : Identifier)
  | IntegerLiteral (Token : Token) (Value : Int)
  | FloatLiteral (Token : Token) (Value : Nat)
  | StringLiteral (Token : Token) (Value : List Nat)
  | PrefixExpression (Token : Token) (Operator : List Nat) (Right : Expression)
  | InfixExpression (Token : Token) (Left : Expression) (Operator : List Nat)
      (Right : Expression)
  | Boolean (Token : Token) (Value : Bool)
  | IfExpression (Token : Token) (Condition : Expression) (Consequence : BlockStatement)
      (Alternative : Option BlockStatement)
  | FunctionLiteral (Token : Token) (Parameters : List Identifier) (Body : BlockStatement)
  | CallExpression (Token : Token) (Function : Expression) (Arguments : List Expression)
  | ForExpression (Token : Token) (Condition : Expression) (Body : BlockStatement)
  | ArrayLiteral (Token : Token) (Elements : List Expression)
  | HashLiteral (Token : Token) (Pairs : List (Expression × Expression))
  | IndexExpression (Token : Token) (Left : Expression) (Index : Expression)
/-- The structs that implement the interface `Statement`. -/
inductive Statement where
  | VarStatement (Token : Token) (Name : Identifier) (Value : Option Expression)
  | ReturnStatement (Token : Token) (ReturnValue : Option Expression)
  | ExpressionStatement (Token : Token) (Expression : Option Expression)
  | BlockStatement (b : BlockStatement)
/-- The struct `BlockStatement`. -/
inductive BlockStatement where
  | mk (Token : Token) (Statements : List Statement)
end

/-- The struct `Program`. -/
structure Program where
  Statements : List Statement

/-- Go's `strings.Join(elems, sep)`. -/
def stringsJoin (elems : List (List Nat)) (sep : List Nat) : List Nat :=
  match elems with
  | [] => []
  | [a] => a
  | a :: rest => a ++ sep ++ stringsJoin rest sep

/-- The method `Identifier.TokenLiteral`. -/
def Identifier.TokenLiteral (i : Identifier) : List Nat := i.Token.Literal

/-- The method `Identifier.String`. -/
def Identifier.String (i : Identifier) : List Nat := i.Value

/-- The method `BlockStatement.TokenLiteral`. -/
def BlockStatement.TokenLiteral : BlockStatement → List Nat
  | .mk tok _ => tok.Literal

/-- The methods `TokenLiteral` of the expression structs. -/
def Expression.TokenLiteral : Expression → List Nat
  | .Identifier i => i.TokenLiteral
  | .IntegerLiteral tok _ => tok.Literal
  | .FloatLiteral tok _ => tok.Literal
  | .StringLiteral tok _ => tok.Literal
  | .PrefixExpression tok _ _ => tok.Literal
  | .InfixExpression tok _ _ _ => tok.Literal
  | .Boolean tok _ => tok.Literal
  | .IfExpression tok _ _ _ => tok.Literal
  | .FunctionLiteral tok _ _ => tok.Literal
  | .CallExpression tok _ _ => tok.Literal
  | .ForExpression tok _ _ => tok.Literal
  | .ArrayLiteral tok _ => tok.Literal
  | .HashLiteral tok _ => tok.Literal
  | .IndexExpression tok _ _ => tok.Literal

/-- The methods `TokenLiteral` of the statement structs. -/
def Statement.TokenLiteral : Statement → List Nat
  | .VarStatement tok _ _ => tok.Literal
  | .ReturnStatement tok _ => tok.Literal
  | .ExpressionStatement tok _ => tok.Literal
  | .BlockStatement b => b.TokenLiteral

/-- The method `Program.TokenLiteral`. -/
def Program.TokenLiteral (p : Program) : List Nat :=
  if h : 0 < p.Statements.length then (p.Statements.get ⟨0, h⟩).TokenLiteral else []

mutual
/-- The methods `String` of the expression structs. -/
def Expression.String : Expression → List Nat
  | .Identifier i => i.String
  | .IntegerLiteral tok _ => tok.Literal
  | .FloatLiteral tok _ => tok.Literal
  | .StringLiteral tok _ => tok.Literal
  | .PrefixExpression _ op right =>
    let out := ascii "("
    let out := out ++ op
    let out := out ++ right.String
    out ++ ascii ")"
  | .InfixExpression _ left op right =>
    let out := ascii "("
    let out := out ++ left.String
    let out := out ++ (ascii " " ++ op ++ ascii " ")
    let out := out ++ right.String
    out ++ ascii ")"
  | .Boolean tok _ => tok.Literal
  | .IfExpression _ cond cons alt =>
    let out := ascii "if"
    let out := out ++ cond.String
    let out := out ++ ascii " "
    let out := out ++ cons.String
    let out := match alt with
      | some a => (out ++ ascii "else ") ++ a.String
      | none => out
    out
  | .FunctionLiteral tok params body =>
    let params := params.map Identifier.String
    let out := tok.Literal -- fl.TokenLiteral()
    let out := out ++ ascii "("
    let out := out ++ stringsJoin params (ascii ", ")
    let out := out ++ ascii ")"
    out ++ body.String
  | .CallExpression _ f args =>
    let args := Expression.Strings args
    let out := f.String
    let out := out ++ ascii "("
    let out := out ++ stringsJoin args (ascii ", ")
    out ++ ascii ")"
  | .ForExpression _ cond body =>
    let out := ascii "for"
    let out := out ++ cond.String
    let out := out ++ ascii " "
    out ++ body.String
  | .ArrayLiteral _ elems =>
    let elements := Expression.Strings elems
    ascii "[" ++ stringsJoin elements (ascii ", ") ++ ascii "]"
  | .HashLiteral _ pairs =>
    let pairs := Expression.PairStrings pairs
    ascii "\x7b" ++ stringsJoin pairs (ascii ", ") ++ ascii "\x7d"
  | .IndexExpression _ left index =>
    ascii "(" ++ left.String ++ ascii "[" ++ index.String ++ ascii "])"
/-- The loop that collects `e.String()` for each `e` of a slice of expressions. -/
def Expression.Strings : List Expression → List (List Nat)
  | [] => []
  | e :: rest => e.String :: Expression.Strings rest
/-- The loop of `HashLiteral.String` that collects `key.String()+":"+value.String()`. -/
def Expression.PairStrings : List (Expression × Expression) → List (List Nat)
  | [] => []
  | (key, value) :: rest =>
    (key.String ++ ascii ":" ++ value.String) :: Expression.PairStrings rest
/-- The methods `String` of the statement structs. -/
def Statement.String : Statement → List Nat
  | .VarStatement tok name value =>
    let out := tok.Literal ++ ascii " " -- vs.TokenLiteral() + " "
    let out := out ++ name.String
    let out := out ++ ascii " = "
    let out := match value with
      | some v => out ++ v.String
      | none => out
    out ++ ascii ";"
  | .ReturnStatement tok value =>
    let out := tok.Literal ++ ascii " " -- rs.TokenLiteral() + " "
    let out := match value with
      | some v => out ++ v.String
      | none => out
    out ++ ascii ";"
  | .ExpressionStatement _ e =>
    match e with
    | some e => e.String
    | none => []
  | .BlockStatement b => b.String
/-- The method `BlockStatement.String`. -/
def BlockStatement.String : BlockStatement → List Nat
  | .mk _ stmts => Statement.Strings [] stmts
/-- The loop `for _, s := range bs.Statements { out += s.String() }`. -/
def Statement.Strings (out : List Nat) : List Statement → List Nat
  | [] => out
  | s :: rest => Statement.Strings (out ++ s.String) rest
end

/-- The method `Program.String`. -/
def Program.String (p : Program) : List Nat :=
  p.Statements.foldl (fun out s => out ++ s.String) []

/-- The tree of `if (x) { return x; }` with no alternative. -/
def ifReturnX : Expression :=
  .IfExpression ⟨IF, ascii "if"⟩ (.Identifier ⟨⟨IDENT, ascii "x"⟩, ascii "x"⟩)
    (.mk ⟨LBRACE, ascii "\x7b"⟩
      [.ReturnStatement ⟨RETURN, ascii "return"⟩ (some (.Identifier ⟨⟨IDENT, ascii "x"⟩, ascii "x"⟩))])
    none

theorem readChar_atPos (input : List Nat) (p : Nat) :
    readChar (atPos input p) = atPos input (p + 1) := by
  unfold readChar atPos
  by_cases h : p + 1 < input.length
  · simp only [dif_pos h, List.drop_eq_getElem_cons h, List.headD_cons]
  · simp only [dif_neg h, List.drop_eq_nil_of_le (Nat.le_of_not_lt h), List.headD_nil]

theorem New_eq_atPos (input : List Nat) : New input = atPos input 0 := by
  unfold New readChar atPos
  cases input <;> simp

theorem peekChar_atPos (input : List Nat) (p : Nat) :
    peekChar (atPos input p) = (input.drop (p + 1)).headD 0 := by
  unfold peekChar atPos
  by_cases h : p + 1 < input.length
  · simp only [dif_pos h, List.drop_eq_getElem_cons h, List.headD_cons]
  · simp only [dif_neg h, List.drop_eq_nil_of_le (Nat.le_of_not_lt h), List.headD_nil]

theorem drop_succ_of_drop_eq_cons {input : List Nat} {p c : Nat} {t : List Nat}
    (h : input.drop p = c :: t) : input.drop (p + 1) = t := by
  have : input.drop (p + 1) = (input.drop p).drop 1 := by
    rw [List.drop_drop, Nat.add_comm]
  rw [this, h]; rfl

/-- The loop `for cond(l.currentChar) { l.readChar() }` stops at the first
unread character that fails `cond`. -/
theorem readWhile_atPos (cond : Nat → Bool) (h0 : cond 0 = false) (input : List Nat) :
    ∀ (fuel p : Nat), ((input.drop p).takeWhile cond).length < fuel →
      readWhile cond fuel (atPos input p)
        = some (atPos input (p + ((input.drop p).takeWhile cond).length)) := by
  intro fuel
  induction fuel with
  | zero => intro p h; omega
  | succ n ih =>
    intro p h
    rcases hd : input.drop p with _ | ⟨c, t⟩
    · simp [readWhile, atPos, hd, h0]
    · have ht := drop_succ_of_drop_eq_cons hd
      by_cases hc : cond c = true
      · rw [hd] at h
        simp only [List.takeWhile_cons, hc, if_true, List.length_cons] at h ⊢
        have hcur : (atPos input p).currentChar = c := by simp [atPos, hd]
        rw [readWhile, hcur, if_pos hc, readChar_atPos, ih (p + 1) (by rw [ht]; omega), ht]
        congr 2; omega
      · have hcur : (atPos input p).currentChar = c := by simp [atPos, hd]
        simp [readWhile, hcur, hc, List.takeWhile_cons]

/-- The loop of `readString` stops at the first unread character after the
opening quote that is a quote or the sentinel 0, or at the end of the input. -/
theorem readStringLoop_atPos (input : List Nat) :
    ∀ (fuel p : Nat), ((input.drop (p + 1)).takeWhile inString).length < fuel →
      readStringLoop fuel (atPos input p)
        = some (atPos input (p + 1 + ((input.drop (p + 1)).takeWhile inString).length)) := by
  intro fuel
  induction fuel with
  | zero => intro p h; omega
  | succ n ih =>
    intro p h
    rw [readStringLoop, readChar_atPos]
    rcases hd : input.drop (p + 1) with _ | ⟨c, t⟩
    · simp [atPos, hd]
    · have ht := drop_succ_of_drop_eq_cons hd
      have hcur : (atPos input (p + 1)).currentChar = c := by simp [atPos, hd]
      by_cases hc : c = 34 ∨ c = 0
      · have hs : inString c = false := by
          rcases hc with hc | hc <;> subst hc <;> rfl
        simp [hcur, hc, List.takeWhile_cons, hs]
      · have hs : inString c = true := by
          simp only [not_or] at hc
          simp [inString, hc.1, hc.2]
        rw [hd] at h
        simp only [List.takeWhile_cons, hs, if_true, List.length_cons] at h ⊢
        simp only [hcur, hc, if_false]
        rw [ih (p + 1) (by rw [ht]; omega), ht]
        congr 2; omega

theorem take_length_takeWhile (cond : Nat → Bool) (r : List Nat) :
    r.take (r.takeWhile cond).length = r.takeWhile cond := by
  induction r with
  | nil => rfl
  | cons c t ih =>
    by_cases hc : cond c = true
    · simp [List.takeWhile_cons, hc, ih]
    · simp [List.takeWhile_cons, hc]

theorem length_takeWhile_le (cond : Nat → Bool) (r : List Nat) :
    (r.takeWhile cond).length ≤ r.length :=
  (List.takeWhile_sublist cond).length_le

/-- A slice that starts at `p` and ends where a run of `cond` characters ends is
in range, and is that run. -/
theorem slice_takeWhile (cond : Nat → Bool) (input : List Nat) (p : Nat) (hp : p ≤ input.length) :
    slice input p (p + ((input.drop p).takeWhile cond).length)
      = some ((input.drop p).takeWhile cond) := by
  have h1 := length_takeWhile_le cond (input.drop p)
  rw [List.length_drop] at h1
  unfold slice
  rw [if_pos ⟨by omega, by omega⟩, Nat.add_sub_cancel_left, take_length_takeWhile]

theorem atPos_input (input : List Nat) (p : Nat) : (atPos input p).input = input := rfl

theorem atPos_position (input : List Nat) (p : Nat) : (atPos input p).position = p := rfl

theorem readWhile_atPos_fuel (cond : Nat → Bool) (h0 : cond 0 = false) (input : List Nat)
    (p : Nat) :
    readWhile cond (input.length + 2) (atPos input p)
      = some (atPos input (p + ((input.drop p).takeWhile cond).length)) := by
  apply readWhile_atPos cond h0
  have h1 := length_takeWhile_le cond (input.drop p)
  rw [List.length_drop] at h1
  omega

theorem skipWhitespace_atPos (input : List Nat) (p : Nat) :
    skipWhitespace (atPos input p)
      = some (atPos input (p + ((input.drop p).takeWhile isWhitespace).length)) :=
  readWhile_atPos_fuel isWhitespace rfl input p

theorem readIdentifier_atPos (input : List Nat) (p : Nat) (hp : p ≤ input.length) :
    readIdentifier (atPos input p)
      = some ((input.drop p).takeWhile isLetter,
          atPos input (p + ((input.drop p).takeWhile isLetter).length)) := by
  unfold readIdentifier
  simp only [atPos_input, atPos_position, readWhile_atPos_fuel isLetter rfl input p,
    slice_takeWhile isLetter input p hp]

theorem readNumber_atPos (input : List Nat) (p : Nat) (hp : p ≤ input.length) :
    readNumber (atPos input p)
      = some ((input.drop p).takeWhile isDigit,
          atPos input (p + ((input.drop p).takeWhile isDigit).length)) := by
  unfold readNumber
  simp only [atPos_input, atPos_position, readWhile_atPos_fuel isDigit rfl input p,
    slice_takeWhile isDigit input p hp]

theorem readString_atPos (input : List Nat) (p : Nat) (hp : p < input.length) :
    readString (atPos input p)
      = some ((input.drop (p + 1)).takeWhile inString,
          atPos input (p + 1 + ((input.drop (p + 1)).takeWhile inString).length)) := by
  have h1 := length_takeWhile_le inString (input.drop (p + 1))
  rw [List.length_drop] at h1
  unfold readString
  simp only [atPos_input, atPos_position,
    readStringLoop_atPos input (input.length + 2) p (by omega),
    slice_takeWhile inString input (p + 1) hp]

theorem lt_length_of_drop_eq_cons {input : List Nat} {p c : Nat} {t : List Nat}
    (h : input.drop p = c :: t) : p < input.length := by
  by_contra hlt
  rw [List.drop_eq_nil_of_le (Nat.le_of_not_lt hlt)] at h
  exact List.noConfusion h

theorem drop_length_takeWhile (cond : Nat → Bool) (r : List Nat) :
    r.drop (r.takeWhile cond).length = r.dropWhile cond := by
  induction r with
  | nil => rfl
  | cons c t ih =>
    by_cases hc : cond c = true
    · simp [List.takeWhile_cons, List.dropWhile_cons, hc, ih]
    · simp [List.takeWhile_cons, List.dropWhile_cons, hc]

/-- A letter or a digit-or-dot is none of the characters the `switch` names. -/
theorem not_named_of_isLetter_or_isDigit (k : Nat) (hk : isLetter k = true ∨ isDigit k = true) :
    k ≠ 34 ∧ k ≠ 61 ∧ k ≠ 59 ∧ k ≠ 40 ∧ k ≠ 41 ∧ k ≠ 44 ∧ k ≠ 43 ∧ k ≠ 123 ∧ k ≠ 125 ∧ k ≠ 91
      ∧ k ≠ 93 ∧ k ≠ 58 ∧ k ≠ 45 ∧ k ≠ 33 ∧ k ≠ 47 ∧ k ≠ 42 ∧ k ≠ 60 ∧ k ≠ 62 ∧ k ≠ 0 := by
  simp only [isLetter, isDigit, Bool.or_eq_true, Bool.and_eq_true, decide_eq_true_eq,
    beq_iff_eq] at hk
  omega

/-- The `switch` of `NextToken` at a character that is a token by itself. -/
theorem nextTokenSwitch_single (LookupIdent : List Nat → TokenType) (l : Lexer)
    (h34 : l.currentChar ≠ 34) (h61 : l.currentChar ≠ 61) (h33 : l.currentChar ≠ 33)
    (h0 : l.currentChar ≠ 0) (hl : isLetter l.currentChar = false)
    (hg : isDigit l.currentChar = false) :
    nextTokenSwitch LookupIdent l
      = some (⟨singleKind l.currentChar, byteToString l.currentChar⟩, readChar l) := by
  unfold nextTokenSwitch
  simp only []
  rw [if_neg h34, if_neg h61]
  by_cases h59 : l.currentChar = 59
  · rw [if_pos h59, h59]; rfl
  rw [if_neg h59]
  by_cases h40 : l.currentChar = 40
  · rw [if_pos h40, h40]; rfl
  rw [if_neg h40]
  by_cases h41 : l.currentChar = 41
  · rw [if_pos h41, h41]; rfl
  rw [if_neg h41]
  by_cases h44 : l.currentChar = 44
  · rw [if_pos h44, h44]; rfl
  rw [if_neg h44]
  by_cases h43 : l.currentChar = 43
  · rw [if_pos h43, h43]; rfl
  rw [if_neg h43]
  by_cases h123 : l.currentChar = 123
  · rw [if_pos h123, h123]; rfl
  rw [if_neg h123]
  by_cases h125 : l.currentChar = 125
  · rw [if_pos h125, h125]; rfl
  rw [if_neg h125]
  by_cases h91 : l.currentChar = 91
  · rw [if_pos h91, h91]; rfl
  rw [if_neg h91]
  by_cases h93 : l.currentChar = 93
  · rw [if_pos h93, h93]; rfl
  rw [if_neg h93]
  by_cases h58 : l.currentChar = 58
  · rw [if_pos h58, h58]; rfl
  rw [if_neg h58]
  by_cases h45 : l.currentChar = 45
  · rw [if_pos h45, h45]; rfl
  rw [if_neg h45]
  rw [if_neg h33]
  by_cases h47 : l.currentChar = 47
  · rw [if_pos h47, h47]; rfl
  rw [if_neg h47]
  by_cases h42 : l.currentChar = 42
  · rw [if_pos h42, h42]; rfl
  rw [if_neg h42]
  by_cases h60 : l.currentChar = 60
  · rw [if_pos h60, h60]; rfl
  rw [if_neg h60]
  by_cases h62 : l.currentChar = 62
  · rw [if_pos h62, h62]; rfl
  rw [if_neg h62]
  rw [if_neg h0, hl, hg, if_neg Bool.false_ne_true, if_neg Bool.false_ne_true]
  unfold singleKind newToken
  rw [if_neg h59, if_neg h40, if_neg h41, if_neg h44, if_neg h43, if_neg h123, if_neg h125,
    if_neg h91, if_neg h93, if_neg h58, if_neg h45, if_neg h47, if_neg h42, if_neg h60, if_neg h62]

/-- The `switch` of `NextToken` at a lexer made by `New` and `readChar`: the token
and the cursor move are those `scanSwitch` computes from the unread input. -/
theorem nextTokenSwitch_atPos (LookupIdent : List Nat → TokenType) (input : List Nat) (p : Nat) :
    nextTokenSwitch LookupIdent (atPos input p)
      = some ((scanSwitch LookupIdent (input.drop p)).1,
          atPos input (p + (scanSwitch LookupIdent (input.drop p)).2)) := by
  rcases hd : input.drop p with _ | ⟨c, t⟩
  · have hcur : (atPos input p).currentChar = 0 := by simp [atPos, hd]
    simp [nextTokenSwitch, scanSwitch, hcur, readChar_atPos]
  · have ht := drop_succ_of_drop_eq_cons hd
    have hp := lt_length_of_drop_eq_cons hd
    have hcur : (atPos input p).currentChar = c := by simp [atPos, hd]
    have hpeek : peekChar (atPos input p) = t.headD 0 := by rw [peekChar_atPos, ht]
    have hcur1 : (atPos input (p + 1)).currentChar = t.headD 0 := by simp [atPos, ht]
    by_cases h34 : c = 34
    · unfold nextTokenSwitch scanSwitch
      simp only [hcur, h34, if_true, readString_atPos input p hp, ht, readChar_atPos]
      congr 3
      omega
    by_cases h61 : c = 61
    · subst h61
      unfold nextTokenSwitch scanSwitch
      simp only [hcur, hpeek, if_neg h34, if_true]
      by_cases hq : t.headD 0 = 61
      · simp only [if_pos hq, readChar_atPos, hcur1, hq]
        rfl
      · simp only [if_neg hq, readChar_atPos]
        rfl
    by_cases h33 : c = 33
    · subst h33
      unfold nextTokenSwitch scanSwitch
      simp only [hcur, hpeek, if_neg h34, if_neg h61, if_true]
      by_cases hq : t.headD 0 = 61
      · simp only [if_pos hq, readChar_atPos, hcur1, hq]
        rfl
      · simp only [if_neg hq, readChar_atPos]
        rfl
    by_cases h0 : c = 0
    · subst h0
      unfold nextTokenSwitch scanSwitch
      simp only [hcur, readChar_atPos]
      rfl
    by_cases hl : isLetter c = true
    · obtain ⟨-, -, a1, a2, a3, a4, a5, a6, a7, a8, a9, a10, a11, -, a12, a13, a14, a15, -⟩ :=
        not_named_of_isLetter_or_isDigit c (Or.inl hl)
      have hr := readIdentifier_atPos input p (Nat.le_of_lt hp)
      rw [hd] at hr
      unfold nextTokenSwitch scanSwitch
      simp only [hcur, if_neg h34, if_neg h61, if_neg h33, if_neg h0, if_neg a1, if_neg a2,
        if_neg a3, if_neg a4, if_neg a5, if_neg a6, if_neg a7, if_neg a8, if_neg a9, if_neg a10,
        if_neg a11, if_neg a12, if_neg a13, if_neg a14, if_neg a15, if_pos hl, hr]
    by_cases hg : isDigit c = true
    · obtain ⟨-, -, a1, a2, a3, a4, a5, a6, a7, a8, a9, a10, a11, -, a12, a13, a14, a15, -⟩ :=
        not_named_of_isLetter_or_isDigit c (Or.inr hg)
      have hr := readNumber_atPos input p (Nat.le_of_lt hp)
      rw [hd] at hr
      unfold nextTokenSwitch scanSwitch
      simp only [hcur, if_neg h34, if_neg h61, if_neg h33, if_neg h0, if_neg a1, if_neg a2,
        if_neg a3, if_neg a4, if_neg a5, if_neg a6, if_neg a7, if_neg a8, if_neg a9, if_neg a10,
        if_neg a11, if_neg a12, if_neg a13, if_neg a14, if_neg a15, if_neg hl, if_pos hg, hr]
      split <;> rfl
    · rw [nextTokenSwitch_single LookupIdent (atPos input p) (by rw [hcur]; exact h34)
        (by rw [hcur]; exact h61) (by rw [hcur]; exact h33) (by rw [hcur]; exact h0)
        (by rw [hcur]; simpa using hl) (by rw [hcur]; simpa using hg), hcur, readChar_atPos]
      unfold scanSwitch
      simp only [if_neg h34, if_neg h61, if_neg h33, if_neg h0, if_neg hl, if_neg hg]

/-- The method `NextToken` at a lexer made by `New` and `readChar`: it returns,
and the token and the cursor move are those `scan` computes from the unread
input. -/
theorem NextToken_atPos (LookupIdent : List Nat → TokenType) (input : List Nat) (p : Nat) :
    NextToken LookupIdent (atPos input p)
      = some ((scan LookupIdent (input.drop p)).1,
          atPos input (p + (scan LookupIdent (input.drop p)).2)) := by
  have hdrop : input.drop (p + ((input.drop p).takeWhile isWhitespace).length)
      = (input.drop p).dropWhile isWhitespace := by
    rw [← List.drop_drop, drop_length_takeWhile]
  unfold NextToken
  simp only [skipWhitespace_atPos, nextTokenSwitch_atPos, hdrop, scan, Nat.add_assoc]

/-! ## Facts about `scan` -/

theorem isWhitespace_iff (c : Nat) :
    isWhitespace c = true ↔ c = 32 ∨ c = 10 ∨ c = 9 ∨ c = 13 := by
  simp [isWhitespace, or_assoc]

theorem isLetter_iff (c : Nat) :
    isLetter c = true ↔ (97 ≤ c ∧ c ≤ 122) ∨ (65 ≤ c ∧ c ≤ 90) ∨ c = 95 := by
  simp [isLetter, or_assoc]

theorem isDigit_iff (c : Nat) : isDigit c = true ↔ (48 ≤ c ∧ c ≤ 57) ∨ c = 46 := by
  simp [isDigit]

theorem inString_iff (c : Nat) : inString c = true ↔ c ≠ 34 ∧ c ≠ 0 := by
  simp [inString]

/-- A run of `cond` characters followed by a character that fails `cond`, or by
nothing, is what `takeWhile` takes and what `dropWhile` drops. -/
theorem takeWhile_dropWhile_run (cond : Nat → Bool) (a b : List Nat)
    (ha : ∀ c ∈ a, cond c = true) (hb : ∀ c, b.head? = some c → cond c = false) :
    (a ++ b).takeWhile cond = a ∧ (a ++ b).dropWhile cond = b := by
  induction a with
  | nil =>
    cases b with
    | nil => exact ⟨rfl, rfl⟩
    | cons c t =>
      have hc := hb c rfl
      simp [List.takeWhile_cons, List.dropWhile_cons, hc]
  | cons c t ih =>
    have hc := ha c (List.mem_cons_self c t)
    have := ih (fun x hx => ha x (List.mem_cons_of_mem c hx))
    simp [List.takeWhile_cons, List.dropWhile_cons, hc, this.1, this.2]

/-- Leading whitespace moves the cursor and leaves the token as it is. -/
theorem scan_append_whitespace (LookupIdent : List Nat → TokenType) (w r : List Nat)
    (hw : ∀ c ∈ w, isWhitespace c = true) :
    scan LookupIdent (w ++ r) = ((scan LookupIdent r).1, w.length + (scan LookupIdent r).2) := by
  induction w with
  | nil => simp
  | cons c t ih =>
    have hc := hw c (List.mem_cons_self c t)
    have h := ih (fun x hx => hw x (List.mem_cons_of_mem c hx))
    unfold scan at h ⊢
    simp only [List.cons_append, List.takeWhile_cons, List.dropWhile_cons, hc, if_true,
      List.length_cons]
    rw [Prod.ext_iff] at h ⊢
    simp only at h ⊢
    refine ⟨h.1, ?_⟩
    omega

/-- Unread input that starts with no whitespace: `scan` is `scanSwitch`. -/
theorem scan_of_head (LookupIdent : List Nat → TokenType) (r : List Nat)
    (hr : ∀ c, r.head? = some c → isWhitespace c = false) :
    scan LookupIdent r = scanSwitch LookupIdent r := by
  have h := takeWhile_dropWhile_run isWhitespace [] r (fun _ h => absurd h (List.not_mem_nil _)) hr
  simp only [List.nil_append] at h
  unfold scan
  rw [h.1, h.2]
  simp

/-- The first call of `NextToken` on an input made of whitespace `w` and then of
`r`, which starts with no whitespace. -/
theorem NextToken_New_whitespace (LookupIdent : List Nat → TokenType) (w r : List Nat)
    (hw : ∀ c ∈ w, isWhitespace c = true) (hr : ∀ c, r.head? = some c → isWhitespace c = false) :
    NextToken LookupIdent (New (w ++ r))
      = some ((scanSwitch LookupIdent r).1,
          atPos (w ++ r) (w.length + (scanSwitch LookupIdent r).2)) := by
  rw [New_eq_atPos, NextToken_atPos, List.drop_zero, scan_append_whitespace LookupIdent w r hw,
    scan_of_head LookupIdent r hr, Nat.zero_add]

/-- Every call of `NextToken` moves the cursor forward. -/
theorem scanSwitch_pos (LookupIdent : List Nat → TokenType) (r : List Nat) :
    1 ≤ (scanSwitch LookupIdent r).2 := by
  unfold scanSwitch
  cases r with
  | nil => simp
  | cons c t =>
    simp only
    split_ifs with h1 h2 h3 h4 h5 h6 h7 h8 <;>
      simp only [List.takeWhile_cons, List.length_cons, if_true, *] <;> omega

theorem scan_pos (LookupIdent : List Nat → TokenType) (r : List Nat) :
    1 ≤ (scan LookupIdent r).2 := by
  have := scanSwitch_pos LookupIdent (r.dropWhile isWhitespace)
  unfold scan
  simp only
  omega

theorem scan_nil (LookupIdent : List Nat → TokenType) :
    scan LookupIdent [] = (⟨EOF, []⟩, 1) := rfl

theorem scanSwitch_letter (LookupIdent : List Nat → TokenType) (c : Nat) (t : List Nat)
    (hc : isLetter c = true) :
    scanSwitch LookupIdent (c :: t)
      = (⟨LookupIdent ((c :: t).takeWhile isLetter), (c :: t).takeWhile isLetter⟩,
          ((c :: t).takeWhile isLetter).length) := by
  obtain ⟨h34, h61, -, -, -, -, -, -, -, -, -, -, -, h33, -, -, -, -, h0⟩ :=
    not_named_of_isLetter_or_isDigit c (Or.inl hc)
  simp only [scanSwitch, if_neg h34, if_neg h61, if_neg h33, if_neg h0, if_pos hc]

theorem isLetter_eq_false_of_isDigit (c : Nat) (hc : isDigit c = true) : isLetter c = false := by
  rw [isDigit_iff] at hc
  rw [← Bool.not_eq_true, isLetter_iff]
  omega

theorem scanSwitch_digit (LookupIdent : List Nat → TokenType) (c : Nat) (t : List Nat)
    (hc : isDigit c = true) :
    scanSwitch LookupIdent (c :: t)
      = (⟨if 46 ∈ (c :: t).takeWhile isDigit then FLOAT else INT, (c :: t).takeWhile isDigit⟩,
          ((c :: t).takeWhile isDigit).length) := by
  obtain ⟨h34, h61, -, -, -, -, -, -, -, -, -, -, -, h33, -, -, -, -, h0⟩ :=
    not_named_of_isLetter_or_isDigit c (Or.inr hc)
  have hl : ¬ isLetter c = true := by simp [isLetter_eq_false_of_isDigit c hc]
  simp only [scanSwitch, if_neg h34, if_neg h61, if_neg h33, if_neg h0, if_neg hl, if_pos hc]

theorem scanSwitch_other (LookupIdent : List Nat → TokenType) (c : Nat) (t : List Nat)
    (h34 : c ≠ 34) (h61 : c ≠ 61) (h33 : c ≠ 33) (h0 : c ≠ 0) (hl : isLetter c = false)
    (hg : isDigit c = false) :
    scanSwitch LookupIdent (c :: t) = (⟨singleKind c, byteToString c⟩, 1) := by
  simp only [scanSwitch, if_neg h34, if_neg h61, if_neg h33, if_neg h0, hl, hg,
    Bool.false_eq_true, if_false]

theorem drop_append_length (a b : List Nat) : (a ++ b).drop a.length = b := by
  simp

/-! ## Sequences of calls -/

/-- The first `k` calls of `NextToken` at a lexer made by `New` and `readChar`
all return, with the tokens and the cursor move that `scanN` computes. -/
theorem nextTokens_atPos (LookupIdent : List Nat → TokenType) (input : List Nat) :
    ∀ (k p : Nat), nextTokens LookupIdent k (atPos input p)
      = some ((scanN LookupIdent k (input.drop p)).1,
          atPos input (p + (scanN LookupIdent k (input.drop p)).2)) := by
  intro k
  induction k with
  | zero => intro p; rfl
  | succ k ih =>
    intro p
    simp only [nextTokens, NextToken_atPos, ih, scanN, List.drop_drop, Nat.add_assoc]

theorem length_scanN (LookupIdent : List Nat → TokenType) :
    ∀ (k : Nat) (r : List Nat), (scanN LookupIdent k r).1.length = k := by
  intro k
  induction k with
  | zero => intro r; rfl
  | succ k ih => intro r; simp [scanN, ih]

theorem le_scanN (LookupIdent : List Nat → TokenType) :
    ∀ (k : Nat) (r : List Nat), k ≤ (scanN LookupIdent k r).2 := by
  intro k
  induction k with
  | zero => intro r; exact Nat.zero_le _
  | succ k ih =>
    intro r
    have h1 := scan_pos LookupIdent r
    have h2 := ih (r.drop (scan LookupIdent r).2)
    simp only [scanN]
    omega

/-- Leading whitespace leaves the tokens of any number of calls as they are. -/
theorem scanN_append_whitespace (LookupIdent : List Nat → TokenType) (w r : List Nat)
    (hw : ∀ c ∈ w, isWhitespace c = true) (k : Nat) :
    (scanN LookupIdent k (w ++ r)).1 = (scanN LookupIdent k r).1 := by
  cases k with
  | zero => rfl
  | succ k =>
    have hdrop : ∀ n, (w ++ r).drop (w.length + n) = r.drop n := by
      intro n
      rw [← List.drop_drop, drop_append_length]
    simp only [scanN, scan_append_whitespace LookupIdent w r hw, hdrop]

/-- With at most `fuel` unread characters, one of the first `fuel + 1` calls
returns an `EOF` token. -/
theorem scanN_reaches_EOF (LookupIdent : List Nat → TokenType) :
    ∀ (fuel : Nat) (r : List Nat), r.length ≤ fuel →
      ∃ (k : Nat) (ts : List Token) (t : Token), k ≤ fuel ∧
        (scanN LookupIdent (k + 1) r).1 = ts ++ [t] ∧ ts.length = k ∧
        (∀ x ∈ ts, x.Typ ≠ EOF) ∧ t.Typ = EOF := by
  intro fuel
  induction fuel with
  | zero =>
    intro r hr
    have : r = [] := List.length_eq_zero.1 (Nat.le_zero.1 hr)
    subst this
    exact ⟨0, [], ⟨EOF, []⟩, Nat.le_refl 0, rfl, rfl, fun _ h => absurd h (List.not_mem_nil _), rfl⟩
  | succ fuel ih =>
    intro r hr
    by_cases he : (scan LookupIdent r).1.Typ = EOF
    · exact ⟨0, [], (scan LookupIdent r).1, Nat.zero_le _, rfl, rfl,
        fun _ h => absurd h (List.not_mem_nil _), he⟩
    · have hpos := scan_pos LookupIdent r
      have hlen : (r.drop (scan LookupIdent r).2).length ≤ fuel := by
        rw [List.length_drop]; omega
      obtain ⟨k, ts, t, hk, hts, hl, hne, ht⟩ := ih _ hlen
      refine ⟨k + 1, (scan LookupIdent r).1 :: ts, t, Nat.succ_le_succ hk, ?_, by simp [hl], ?_, ht⟩
      · rw [scanN, hts]; rfl
      · intro x hx
        rcases List.mem_cons.1 hx with h | h
        · rw [h]; exact he
        · exact hne x h

/-- When the first `k + 1` calls return `k` tokens that are not `EOF` and then an
`EOF` token, `tokensUntilEOF` with fuel `k` or more returns those tokens. -/
theorem tokensUntilEOF_of_nextTokens (LookupIdent : List Nat → TokenType) :
    ∀ (k fuel : Nat) (l l1 : Lexer) (ts : List Token) (t : Token), k ≤ fuel →
      nextTokens LookupIdent (k + 1) l = some (ts ++ [t], l1) → ts.length = k →
      (∀ x ∈ ts, x.Typ ≠ EOF) → t.Typ = EOF →
      tokensUntilEOF LookupIdent fuel l = some (ts ++ [t]) := by
  intro k
  induction k with
  | zero =>
    intro fuel l l1 ts t _ hn hl _ ht
    have hts : ts = [] := List.length_eq_zero.1 hl
    subst hts
    rw [nextTokens] at hn
    rcases hN : NextToken LookupIdent l with _ | ⟨t0, l0⟩
    · rw [hN] at hn; exact Option.noConfusion hn
    · rw [hN] at hn
      simp only [nextTokens, Option.some.injEq, Prod.mk.injEq, List.nil_append,
        List.cons.injEq, and_true] at hn
      obtain ⟨h1, -⟩ := hn
      subst h1
      unfold tokensUntilEOF
      simp [hN, ht]
  | succ k ih =>
    intro fuel l l1 ts t hk hn hl hne ht
    obtain ⟨f, rfl⟩ : ∃ f, fuel = f + 1 := ⟨fuel - 1, by omega⟩
    rw [nextTokens] at hn
    rcases hN : NextToken LookupIdent l with _ | ⟨t0, l0⟩
    · rw [hN] at hn; exact Option.noConfusion hn
    · rw [hN] at hn
      rcases hR : nextTokens LookupIdent (k + 1) l0 with _ | ⟨ts1, l2⟩
      · simp only [hR] at hn
        exact Option.noConfusion hn
      · simp only [hR, Option.some.injEq, Prod.mk.injEq] at hn
        obtain ⟨h1, h2⟩ := hn
        subst h2
        obtain ⟨x, ts2, rfl⟩ : ∃ x ts2, ts = x :: ts2 := by
          cases ts with
          | nil => simp at hl
          | cons x ts2 => exact ⟨x, ts2, rfl⟩
        simp only [List.cons_append, List.cons.injEq] at h1
        obtain ⟨h3, h4⟩ := h1
        subst h3 h4
        have hx : t0.Typ ≠ EOF := hne t0 (List.mem_cons_self _ _)
        have hrec := ih f l0 l2 ts2 t (by omega) hR (by simpa using hl)
          (fun y hy => hne y (List.mem_cons_of_mem _ hy)) ht
        unfold tokensUntilEOF
        simp [hN, hx, hrec]

/-- The token sequence of an input exists: it is what the first calls of
`NextToken` return, up to the first `EOF` token. -/
theorem tokenize_eq (LookupIdent : List Nat → TokenType) (input : List Nat) :
    ∃ (k : Nat) (ts : List Token) (t : Token), k ≤ input.length ∧
      (scanN LookupIdent (k + 1) input).1 = ts ++ [t] ∧ ts.length = k ∧
      (∀ x ∈ ts, x.Typ ≠ EOF) ∧ t.Typ = EOF ∧
      tokenize LookupIdent input = some (ts ++ [t]) := by
  obtain ⟨k, ts, t, hk, hts, hl, hne, ht⟩ :=
    scanN_reaches_EOF LookupIdent input.length input (Nat.le_refl _)
  refine ⟨k, ts, t, hk, hts, hl, hne, ht, ?_⟩
  have hn := nextTokens_atPos LookupIdent input (k + 1) 0
  rw [List.drop_zero, hts] at hn
  unfold tokenize
  rw [New_eq_atPos]
  exact tokensUntilEOF_of_nextTokens LookupIdent k input.length _ _ ts t hk hn hl hne ht

theorem singleKind_ne_EOF (c : Nat) : singleKind c ≠ EOF := by
  unfold singleKind
  by_cases h59 : c = 59
  · rw [if_pos h59]; exact TokenType.noConfusion
  rw [if_neg h59]
  by_cases h40 : c = 40
  · rw [if_pos h40]; exact TokenType.noConfusion
  rw [if_neg h40]
  by_cases h41 : c = 41
  · rw [if_pos h41]; exact TokenType.noConfusion
  rw [if_neg h41]
  by_cases h44 : c = 44
  · rw [if_pos h44]; exact TokenType.noConfusion
  rw [if_neg h44]
  by_cases h43 : c = 43
  · rw [if_pos h43]; exact TokenType.noConfusion
  rw [if_neg h43]
  by_cases h123 : c = 123
  · rw [if_pos h123]; exact TokenType.noConfusion
  rw [if_neg h123]
  by_cases h125 : c = 125
  · rw [if_pos h125]; exact TokenType.noConfusion
  rw [if_neg h125]
  by_cases h91 : c = 91
  · rw [if_pos h91]; exact TokenType.noConfusion
  rw [if_neg h91]
  by_cases h93 : c = 93
  · rw [if_pos h93]; exact TokenType.noConfusion
  rw [if_neg h93]
  by_cases h58 : c = 58
  · rw [if_pos h58]; exact TokenType.noConfusion
  rw [if_neg h58]
  by_cases h45 : c = 45
  · rw [if_pos h45]; exact TokenType.noConfusion
  rw [if_neg h45]
  by_cases h47 : c = 47
  · rw [if_pos h47]; exact TokenType.noConfusion
  rw [if_neg h47]
  by_cases h42 : c = 42
  · rw [if_pos h42]; exact TokenType.noConfusion
  rw [if_neg h42]
  by_cases h60 : c = 60
  · rw [if_pos h60]; exact TokenType.noConfusion
  rw [if_neg h60]
  by_cases h62 : c = 62
  · rw [if_pos h62]; exact TokenType.noConfusion
  rw [if_neg h62]
  exact TokenType.noConfusion

/-- When the unread input holds no NUL byte, the `switch` returns the `EOF` token
with the empty literal at the end of the input only. -/
theorem scanSwitch_EOF (LookupIdent : List Nat → TokenType) (r : List Nat) (h0 : 0 ∉ r)
    (he : (scanSwitch LookupIdent r).1 = ⟨EOF, []⟩) : r = [] := by
  cases r with
  | nil => rfl
  | cons c t =>
    exfalso
    have hc : c ≠ 0 := fun h => h0 (h ▸ List.mem_cons_self c t)
    have hT := congrArg Token.Typ he
    have hL := congrArg Token.Literal he
    simp only at hT hL
    by_cases h34 : c = 34
    · simp only [scanSwitch, if_pos h34] at hT
      exact TokenType.noConfusion hT
    by_cases h61 : c = 61
    · simp only [scanSwitch, if_neg h34, if_pos h61] at hT
      by_cases hq : t.headD 0 = 61
      · rw [if_pos hq] at hT; exact TokenType.noConfusion hT
      · rw [if_neg hq] at hT; exact TokenType.noConfusion hT
    by_cases h33 : c = 33
    · simp only [scanSwitch, if_neg h34, if_neg h61, if_pos h33] at hT
      by_cases hq : t.headD 0 = 61
      · rw [if_pos hq] at hT; exact TokenType.noConfusion hT
      · rw [if_neg hq] at hT; exact TokenType.noConfusion hT
    by_cases hl : isLetter c = true
    · rw [scanSwitch_letter LookupIdent c t hl] at hL
      simp only [List.takeWhile_cons, hl, if_true] at hL
      exact List.noConfusion hL
    by_cases hg : isDigit c = true
    · rw [scanSwitch_digit LookupIdent c t hg] at hL
      simp only [List.takeWhile_cons, hg, if_true] at hL
      exact List.noConfusion hL
    · rw [scanSwitch_other LookupIdent c t h34 h61 h33 hc (by simpa using hl)
        (by simpa using hg)] at hT
      exact singleKind_ne_EOF c hT

theorem scan_EOF_drop (LookupIdent : List Nat → TokenType) (r : List Nat) (h0 : 0 ∉ r)
    (he : (scan LookupIdent r).1 = ⟨EOF, []⟩) : r.drop (scan LookupIdent r).2 = [] := by
  have hd : r.dropWhile isWhitespace = [] :=
    scanSwitch_EOF LookupIdent _
      (fun h => h0 ((List.dropWhile_suffix isWhitespace).subset h)) he
  have hlen : r.length = (r.takeWhile isWhitespace).length := by
    conv_lhs => rw [← List.takeWhile_append_dropWhile isWhitespace r, hd, List.append_nil]
  apply List.drop_eq_nil_of_le
  unfold scan
  simp only
  omega

theorem scanN_EOF_drop (LookupIdent : List Nat → TokenType) :
    ∀ (k : Nat) (r : List Nat), 0 ∉ r → ⟨EOF, []⟩ ∈ (scanN LookupIdent k r).1 →
      r.drop (scanN LookupIdent k r).2 = [] := by
  intro k
  induction k with
  | zero =>
    intro r _ h
    exact absurd h (List.not_mem_nil _)
  | succ k ih =>
    intro r h0 h
    simp only [scanN] at h ⊢
    rw [← List.drop_drop]
    rcases List.mem_cons.1 h with h1 | h1
    · rw [scan_EOF_drop LookupIdent r h0 h1.symm, List.drop_nil]
    · exact ih _ (fun h => h0 (List.mem_of_mem_drop h)) h1

theorem scanN_nil (LookupIdent : List Nat → TokenType) :
    ∀ m : Nat, scanN LookupIdent m [] = (List.replicate m ⟨EOF, []⟩, m) := by
  intro m
  induction m with
  | zero => rfl
  | succ m ih =>
    simp only [scanN, scan_nil, List.drop_nil, ih, List.replicate_succ]
    rw [Nat.add_comm]

theorem scan_quote (LookupIdent : List Nat → TokenType) (t : List Nat) :
    scan LookupIdent (34 :: t)
      = (⟨STRING, t.takeWhile inString⟩, (t.takeWhile inString).length + 2) := by
  rw [scan_of_head LookupIdent (34 :: t) (fun c hc => by
    simp only [List.head?_cons, Option.some.injEq] at hc
    subst hc; rfl)]
  simp only [scanSwitch, if_true]

/-- A string with no NUL byte and no quote, closed by a quote or by the end of
the input: two calls return the `STRING` token and an `EOF` token. -/
theorem scanN_string (LookupIdent : List Nat → TokenType) (text close : List Nat)
    (hq : 34 ∉ text) (h0 : 0 ∉ text) (hclose : close = [] ∨ close = [34]) :
    (scanN LookupIdent 2 (34 :: (text ++ close))).1 = [⟨STRING, text⟩, ⟨EOF, []⟩] := by
  have hrun := (takeWhile_dropWhile_run inString text close
    (fun c hc => by
      rw [inString_iff]
      exact ⟨fun h => hq (h ▸ hc), fun h => h0 (h ▸ hc)⟩)
    (fun c hc => by
      rcases hclose with h | h <;> subst h
      · exact Option.noConfusion hc
      · simp only [List.head?_cons, Option.some.injEq] at hc
        subst hc; rfl)).1
  have hdrop : (34 :: (text ++ close)).drop (text.length + 2) = [] := by
    apply List.drop_eq_nil_of_le
    rcases hclose with h | h <;> subst h <;> simp
  simp only [scanN, scan_quote, hrun, hdrop, scan_nil]

/-! ## Bounds and literals of the token sequence -/

theorem scanSwitch_le (LookupIdent : List Nat → TokenType) (r : List Nat) :
    (scanSwitch LookupIdent r).2 ≤ r.length + 1 := by
  cases r with
  | nil => simp [scanSwitch]
  | cons c t =>
    have h1 := length_takeWhile_le inString t
    have h2 := length_takeWhile_le isLetter (c :: t)
    have h3 := length_takeWhile_le isDigit (c :: t)
    simp only [List.length_cons] at h2 h3 ⊢
    unfold scanSwitch
    simp only
    split_ifs <;> simp only <;> omega

theorem scan_le (LookupIdent : List Nat → TokenType) (r : List Nat) :
    (scan LookupIdent r).2 ≤ r.length + 1 := by
  have h1 := scanSwitch_le LookupIdent (r.dropWhile isWhitespace)
  have h2 : (r.takeWhile isWhitespace).length + (r.dropWhile isWhitespace).length = r.length := by
    rw [← List.length_append, List.takeWhile_append_dropWhile]
  unfold scan
  simp only
  omega

/-- After `k` calls the cursor stands at most `k` positions past the larger of
its start and the length of the input. -/
theorem scanN_le (LookupIdent : List Nat → TokenType) (input : List Nat) :
    ∀ (k p : Nat), p + (scanN LookupIdent k (input.drop p)).2 ≤ max p input.length + k := by
  intro k
  induction k with
  | zero => intro p; simp [scanN]
  | succ k ih =>
    intro p
    have h1 := scan_le LookupIdent (input.drop p)
    have h2 := ih (p + (scan LookupIdent (input.drop p)).2)
    rw [List.length_drop] at h1
    simp only [scanN, List.drop_drop]
    omega

theorem iterate_readChar_atPos (input : List Nat) (j : Nat) :
    ∀ p : Nat, (readChar^[j]) (atPos input p) = atPos input (p + j) := by
  induction j with
  | zero => intro p; rfl
  | succ j ih =>
    intro p
    rw [Function.iterate_succ_apply, readChar_atPos, ih]
    congr 1; omega

theorem lt_length_of_currentChar_ne_zero (input : List Nat) (p : Nat)
    (h : (atPos input p).currentChar ≠ 0) : p < input.length := by
  by_contra hlt
  apply h
  simp [atPos, List.drop_eq_nil_of_le (Nat.le_of_not_lt hlt)]

/-- When the keyword lookup never answers `EOF` and the unread input holds no
NUL byte, the `switch` returns a token of kind `EOF` at the end of the input only. -/
theorem scanSwitch_Typ_EOF (LookupIdent : List Nat → TokenType)
    (hLI : ∀ s, LookupIdent s ≠ EOF) (r : List Nat) (h0 : 0 ∉ r)
    (he : (scanSwitch LookupIdent r).1.Typ = EOF) : r = [] := by
  cases r with
  | nil => rfl
  | cons c t =>
    exfalso
    have hc : c ≠ 0 := fun h => h0 (h ▸ List.mem_cons_self c t)
    by_cases h34 : c = 34
    · simp only [scanSwitch, if_pos h34] at he
      exact TokenType.noConfusion he
    by_cases h61 : c = 61
    · simp only [scanSwitch, if_neg h34, if_pos h61] at he
      by_cases hq : t.headD 0 = 61
      · rw [if_pos hq] at he; exact TokenType.noConfusion he
      · rw [if_neg hq] at he; exact TokenType.noConfusion he
    by_cases h33 : c = 33
    · simp only [scanSwitch, if_neg h34, if_neg h61, if_pos h33] at he
      by_cases hq : t.headD 0 = 61
      · rw [if_pos hq] at he; exact TokenType.noConfusion he
      · rw [if_neg hq] at he; exact TokenType.noConfusion he
    by_cases hl : isLetter c = true
    · rw [scanSwitch_letter LookupIdent c t hl] at he
      exact hLI _ he
    by_cases hg : isDigit c = true
    · rw [scanSwitch_digit LookupIdent c t hg] at he
      simp only at he
      by_cases hq : 46 ∈ (c :: t).takeWhile isDigit
      · rw [if_pos hq] at he; exact TokenType.noConfusion he
      · rw [if_neg hq] at he; exact TokenType.noConfusion he
    · rw [scanSwitch_other LookupIdent c t h34 h61 h33 hc (by simpa using hl)
        (by simpa using hg)] at he
      exact singleKind_ne_EOF c he

theorem isWhitespace_eq_false_of_isLetter (c : Nat) (h : isLetter c = true) :
    isWhitespace c = false := by
  rw [isLetter_iff] at h
  rw [← Bool.not_eq_true, isWhitespace_iff]
  omega

theorem isWhitespace_eq_false_of_isDigit (c : Nat) (h : isDigit c = true) :
    isWhitespace c = false := by
  rw [isDigit_iff] at h
  rw [← Bool.not_eq_true, isWhitespace_iff]
  omega

/-- On ASCII input with no double quote and no NUL byte, the literal of the token
that the `switch` returns is the text it consumes, which holds no whitespace. -/
theorem scanSwitch_literal (LookupIdent : List Nat → TokenType) (c : Nat) (t : List Nat)
    (hascii : c < 128) (h34 : c ≠ 34) (h0 : c ≠ 0) (hws : isWhitespace c = false) :
    (scanSwitch LookupIdent (c :: t)).1.Literal
        = (c :: t).take (scanSwitch LookupIdent (c :: t)).2
      ∧ (scanSwitch LookupIdent (c :: t)).2 ≤ (c :: t).length
      ∧ ∀ x ∈ (scanSwitch LookupIdent (c :: t)).1.Literal, isWhitespace x = false := by
  by_cases h61 : c = 61
  · subst h61
    cases t with
    | nil => simp [scanSwitch]; rfl
    | cons d t2 =>
      by_cases hd : d = 61
      · subst hd; simp [scanSwitch]; decide
      · have : ¬ (d :: t2).headD 0 = 61 := by simpa using hd
        simp only [scanSwitch, if_neg h34, if_true, if_neg this]
        simp; rfl
  by_cases h33 : c = 33
  · subst h33
    cases t with
    | nil => simp [scanSwitch]; rfl
    | cons d t2 =>
      by_cases hd : d = 61
      · subst hd; simp [scanSwitch]; decide
      · have : ¬ (d :: t2).headD 0 = 61 := by simpa using hd
        simp only [scanSwitch, if_neg h34, if_neg h61, if_true, if_neg this]
        simp; rfl
  by_cases hl : isLetter c = true
  · rw [scanSwitch_letter LookupIdent c t hl]
    refine ⟨(take_length_takeWhile isLetter (c :: t)).symm, length_takeWhile_le isLetter _, ?_⟩
    intro x hx
    exact isWhitespace_eq_false_of_isLetter x (List.mem_takeWhile_imp hx)
  by_cases hg : isDigit c = true
  · rw [scanSwitch_digit LookupIdent c t hg]
    refine ⟨(take_length_takeWhile isDigit (c :: t)).symm, length_takeWhile_le isDigit _, ?_⟩
    intro x hx
    exact isWhitespace_eq_false_of_isDigit x (List.mem_takeWhile_imp hx)
  · rw [scanSwitch_other LookupIdent c t h34 h61 h33 h0 (by simpa using hl) (by simpa using hg)]
    simp [byteToString, hascii, hws]

theorem filter_eq_nil_of_dropWhile_eq_nil (r : List Nat) (h : r.dropWhile isWhitespace = []) :
    r.filter (fun c => !isWhitespace c) = [] := by
  rw [List.filter_eq_nil_iff]
  intro c hc
  have h1 : r.takeWhile isWhitespace = r := by
    conv_rhs => rw [← List.takeWhile_append_dropWhile isWhitespace r, h, List.append_nil]
  rw [← h1] at hc
  simp [List.mem_takeWhile_imp hc]

/-- On ASCII input with no double quote and no NUL byte, a token returned before
the end of the input has for literal the text the call consumes, whitespace
left out. -/
theorem scan_literal (LookupIdent : List Nat → TokenType) (r : List Nat)
    (hascii : ∀ c ∈ r, c < 128) (hq : 34 ∉ r) (h0 : 0 ∉ r)
    (hne : r.dropWhile isWhitespace ≠ []) :
    (scan LookupIdent r).1.Literal
        = (r.take (scan LookupIdent r).2).filter (fun c => !isWhitespace c)
      ∧ (scan LookupIdent r).2 ≤ r.length := by
  obtain ⟨c, t, hct⟩ := List.exists_cons_of_ne_nil hne
  have hmem : c ∈ r := (List.dropWhile_suffix isWhitespace).subset (hct ▸ List.mem_cons_self c t)
  have hws : isWhitespace c = false := by
    have := List.head_dropWhile_not isWhitespace r hne
    simp only [hct, List.head_cons] at this
    simpa using this
  obtain ⟨h1, h2, h3⟩ := scanSwitch_literal LookupIdent c t (hascii c hmem)
    (fun h => hq (h ▸ hmem)) (fun h => h0 (h ▸ hmem)) hws
  have hsplit := List.takeWhile_append_dropWhile isWhitespace r
  have hlen : (r.takeWhile isWhitespace).length + (c :: t).length = r.length := by
    rw [← hct, ← List.length_append, hsplit]
  have htake : r.take ((r.takeWhile isWhitespace).length + (scanSwitch LookupIdent (c :: t)).2)
      = r.takeWhile isWhitespace ++ (c :: t).take (scanSwitch LookupIdent (c :: t)).2 := by
    have h := @List.take_append Nat (r.takeWhile isWhitespace) (r.dropWhile isWhitespace)
      (scanSwitch LookupIdent (c :: t)).2
    rw [hsplit] at h
    rw [h, hct]
  have hfw : (r.takeWhile isWhitespace).filter (fun c => !isWhitespace c) = [] := by
    rw [List.filter_eq_nil_iff]
    intro x hx
    simp [List.mem_takeWhile_imp hx]
  unfold scan
  simp only [hct]
  refine ⟨?_, by omega⟩
  rw [htake, List.filter_append, hfw, List.nil_append, ← h1]
  symm
  rw [List.filter_eq_self]
  intro x hx
  simp [h3 x hx]

/-- The literals of the tokens before the first `EOF` token, put together, are
the input without its whitespace. -/
theorem literals_scanN (LookupIdent : List Nat → TokenType) (hLI : ∀ s, LookupIdent s ≠ EOF) :
    ∀ (k : Nat) (r : List Nat) (ts : List Token) (t : Token),
      (∀ c ∈ r, c < 128) → 34 ∉ r → 0 ∉ r →
      (scanN LookupIdent (k + 1) r).1 = ts ++ [t] → ts.length = k →
      (∀ x ∈ ts, x.Typ ≠ EOF) → t.Typ = EOF →
      (ts.map Token.Literal).flatten = r.filter (fun c => !isWhitespace c) := by
  intro k
  induction k with
  | zero =>
    intro r ts t _ _ h0 hs hl _ ht
    have hts : ts = [] := List.length_eq_zero.1 hl
    subst hts
    simp only [scanN, List.nil_append, List.cons.injEq, and_true] at hs
    have hd : r.dropWhile isWhitespace = [] :=
      scanSwitch_Typ_EOF LookupIdent hLI _
        (fun h => h0 ((List.dropWhile_suffix isWhitespace).subset h))
        (by have := congrArg Token.Typ hs; rw [ht] at this; exact this)
    rw [filter_eq_nil_of_dropWhile_eq_nil r hd]
    rfl
  | succ k ih =>
    intro r ts t hascii hq h0 hs hl hne ht
    obtain ⟨x, ts2, rfl⟩ : ∃ x ts2, ts = x :: ts2 := by
      cases ts with
      | nil => simp at hl
      | cons x ts2 => exact ⟨x, ts2, rfl⟩
    rw [scanN] at hs
    simp only [List.cons_append, List.cons.injEq] at hs
    obtain ⟨hx, hrest⟩ := hs
    have hxne : (scan LookupIdent r).1.Typ ≠ EOF := by
      rw [hx]; exact hne x (List.mem_cons_self _ _)
    have hdne : r.dropWhile isWhitespace ≠ [] := by
      intro hd
      apply hxne
      unfold scan
      rw [hd]
      rfl
    obtain ⟨hlit, hle⟩ := scan_literal LookupIdent r hascii hq h0 hdne
    have hrec := ih (r.drop (scan LookupIdent r).2) ts2 t
      (fun c hc => hascii c (List.mem_of_mem_drop hc))
      (fun h => hq (List.mem_of_mem_drop h)) (fun h => h0 (List.mem_of_mem_drop h))
      hrest (by simpa using hl) (fun y hy => hne y (List.mem_cons_of_mem _ hy)) ht
    simp only [List.map_cons, List.flatten_cons]
    rw [hrec, ← hx, hlit, ← List.filter_append, List.take_append_drop]

/-! ## Tokens of a text laid out from lexemes -/

theorem kindAlone_eq (LookupIdent : List Nat → TokenType) (x : List Nat) :
    kindAlone LookupIdent x = (scan LookupIdent x).1.Typ := by
  unfold kindAlone
  rw [New_eq_atPos, NextToken_atPos, List.drop_zero]

theorem scan_assign_bang (LookupIdent : List Nat → TokenType) (c : Nat) (hc : c = 61 ∨ c = 33)
    (tail : List Nat) (h : tail.head? ≠ some 61) :
    scan LookupIdent ([c] ++ tail) = ((scan LookupIdent [c]).1, 1)
      ∧ (scan LookupIdent [c]).1.Literal = [c] := by
  have hq : ¬ tail.headD 0 = 61 := by
    cases tail with
    | nil => decide
    | cons d t => simpa using h
  rcases hc with hc | hc <;> subst hc
  · rw [scan_of_head _ _ (fun c hc => by
      simp only [List.singleton_append, List.head?_cons, Option.some.injEq] at hc
      subst hc; rfl)]
    simp only [List.singleton_append, scanSwitch, if_neg hq]
    exact ⟨rfl, rfl⟩
  · rw [scan_of_head _ _ (fun c hc => by
      simp only [List.singleton_append, List.head?_cons, Option.some.injEq] at hc
      subst hc; rfl)]
    simp only [List.singleton_append, scanSwitch, if_neg hq]
    exact ⟨rfl, rfl⟩

/-- A lexeme followed by text that does not extend it is one token, whose
literal is the lexeme and which is the token of the lexeme alone. -/
theorem scan_lexeme (LookupIdent : List Nat → TokenType) (x tail : List Nat)
    (hx : IsLexeme x) (hc : Clear x tail) :
    scan LookupIdent (x ++ tail) = ((scan LookupIdent x).1, x.length)
      ∧ (scan LookupIdent x).1.Literal = x := by
  rcases hx with hs | hl | hd
  · simp only [IsSymbol, symbolTable, List.map_cons, List.map_nil, List.mem_cons,
      List.mem_singleton, List.not_mem_nil, or_false] at hs
    rcases hs with h | h | h | h | h | h | h | h | h | h | h | h | h | h | h | h | h | h | h
    all_goals first
      | (subst h; exact ⟨rfl, rfl⟩)
      | (subst h; exact scan_assign_bang LookupIdent 61 (Or.inl rfl) tail
          (hc.2.2 (Or.inl rfl)))
      | (subst h; exact scan_assign_bang LookupIdent 33 (Or.inr rfl) tail
          (hc.2.2 (Or.inr rfl)))
  · obtain ⟨c, t, rfl⟩ := List.exists_cons_of_ne_nil hl.1
    have hcl : isLetter c = true := hl.2 c (List.mem_cons_self c t)
    have hws : ∀ d, (c :: t ++ tail).head? = some d → isWhitespace d = false := by
      intro d hd
      simp only [List.cons_append, List.head?_cons, Option.some.injEq] at hd
      subst hd; exact isWhitespace_eq_false_of_isLetter _ hcl
    have hws0 : ∀ d, (c :: t).head? = some d → isWhitespace d = false := by
      intro d hd
      simp only [List.head?_cons, Option.some.injEq] at hd
      subst hd; exact isWhitespace_eq_false_of_isLetter _ hcl
    have h1 := (takeWhile_dropWhile_run isLetter (c :: t) tail hl.2 (hc.1 hl)).1
    have h2 := (takeWhile_dropWhile_run isLetter (c :: t) [] hl.2
      (fun _ h => Option.noConfusion h)).1
    rw [List.append_nil] at h2
    rw [scan_of_head _ _ hws, scan_of_head _ _ hws0]
    rw [List.cons_append] at h1 ⊢
    rw [scanSwitch_letter _ c _ hcl, scanSwitch_letter _ c _ hcl, h1, h2]
    exact ⟨rfl, rfl⟩
  · obtain ⟨c, t, rfl⟩ := List.exists_cons_of_ne_nil hd.1
    have hcl : isDigit c = true := hd.2 c (List.mem_cons_self c t)
    have hws : ∀ d, (c :: t ++ tail).head? = some d → isWhitespace d = false := by
      intro d hd
      simp only [List.cons_append, List.head?_cons, Option.some.injEq] at hd
      subst hd; exact isWhitespace_eq_false_of_isDigit _ hcl
    have hws0 : ∀ d, (c :: t).head? = some d → isWhitespace d = false := by
      intro d hd
      simp only [List.head?_cons, Option.some.injEq] at hd
      subst hd; exact isWhitespace_eq_false_of_isDigit _ hcl
    have h1 := (takeWhile_dropWhile_run isDigit (c :: t) tail hd.2 (hc.2.1 hd)).1
    have h2 := (takeWhile_dropWhile_run isDigit (c :: t) [] hd.2
      (fun _ h => Option.noConfusion h)).1
    rw [List.append_nil] at h2
    rw [scan_of_head _ _ hws, scan_of_head _ _ hws0]
    rw [List.cons_append] at h1 ⊢
    rw [scanSwitch_digit _ c _ hcl, scanSwitch_digit _ c _ hcl, h1, h2]
    exact ⟨rfl, rfl⟩

theorem IsLexeme.ne_nil {x : List Nat} (hx : IsLexeme x) : x ≠ [] := by
  rcases hx with hs | hl | hd
  · intro h
    subst h
    revert hs
    unfold IsSymbol
    decide
  · exact hl.1
  · exact hd.1

theorem head_symbol (y : List Nat) (hy : IsSymbol y) :
    ∀ c, y.head? = some c → isLetter c = false ∧ isDigit c = false := by
  simp only [IsSymbol, symbolTable, List.map_cons, List.map_nil, List.mem_cons,
    List.mem_singleton, List.not_mem_nil, or_false] at hy
  intro c hc
  rcases hy with h | h | h | h | h | h | h | h | h | h | h | h | h | h | h | h | h | h | h <;>
    subst h <;>
    (simp only [ascii, List.map_cons, List.head?_cons, Option.some.injEq] at hc
     subst hc
     exact ⟨rfl, rfl⟩)

/-- A lexeme is clear of the lexeme that follows it directly when the two cannot merge. -/
theorem clear_of_not_canMerge (x y rest : List Nat) (hy : IsLexeme y) (h : ¬ CanMerge x y) :
    Clear x (y ++ rest) := by
  obtain ⟨c, t, rfl⟩ := List.exists_cons_of_ne_nil hy.ne_nil
  have hhead : ∀ d, (c :: t ++ rest).head? = some d → d = c := by
    intro d hd
    simp only [List.cons_append, List.head?_cons, Option.some.injEq] at hd
    exact hd.symm
  refine ⟨fun hx d hd => ?_, fun hx d hd => ?_, fun hx hd => ?_⟩
  · rw [hhead d hd]
    rcases hy with hs | hl | hg
    · exact (head_symbol _ hs c rfl).1
    · exact absurd (Or.inl ⟨hx, hl⟩) h
    · exact isLetter_eq_false_of_isDigit c (hg.2 c (List.mem_cons_self c t))
  · rw [hhead d hd]
    rcases hy with hs | hl | hg
    · exact (head_symbol _ hs c rfl).2
    · have hc := hl.2 c (List.mem_cons_self c t)
      rw [isLetter_iff] at hc
      rw [← Bool.not_eq_true, isDigit_iff]
      omega
    · exact absurd (Or.inr (Or.inl ⟨hx, hg⟩)) h
  · apply h
    refine Or.inr (Or.inr ⟨hx, ?_⟩)
    rw [hhead 61 hd]
    rfl

theorem clear_of_whitespace (x w rest : List Nat) (hw : IsWhitespaceRun w) (hne : w ≠ []) :
    Clear x (w ++ rest) := by
  obtain ⟨c, t, rfl⟩ := List.exists_cons_of_ne_nil hne
  have hc : isWhitespace c = true := hw c (List.mem_cons_self c t)
  rw [isWhitespace_iff] at hc
  have hhead : ∀ d, (c :: t ++ rest).head? = some d → d = c := by
    intro d hd
    simp only [List.cons_append, List.head?_cons, Option.some.injEq] at hd
    exact hd.symm
  refine ⟨fun _ d hd => ?_, fun _ d hd => ?_, fun _ hd => ?_⟩
  · rw [hhead d hd, ← Bool.not_eq_true, isLetter_iff]; omega
  · rw [hhead d hd, ← Bool.not_eq_true, isDigit_iff]; omega
  · have := hhead 61 hd
    omega

theorem clear_nil (x : List Nat) : Clear x [] :=
  ⟨fun _ _ h => Option.noConfusion h, fun _ _ h => Option.noConfusion h,
    fun _ h => Option.noConfusion h⟩

/-- The first lexeme of a well spaced text is clear of what follows it. -/
theorem wellSpaced_cons (x w : List Nat) (rest : List (List Nat × List Nat))
    (h : WellSpaced ((x, w) :: rest)) :
    IsLexeme x ∧ IsWhitespaceRun w ∧ Clear x (w ++ layout rest) ∧ WellSpaced rest := by
  cases rest with
  | nil =>
    obtain ⟨h1, h2⟩ := h
    refine ⟨h1, h2, ?_, trivial⟩
    by_cases hw : w = []
    · subst hw; exact clear_nil x
    · exact clear_of_whitespace x w _ h2 hw
  | cons q rest2 =>
    obtain ⟨y, v⟩ := q
    obtain ⟨h1, h2, h3, h4⟩ := h
    refine ⟨h1, h2, ?_, h4⟩
    by_cases hw : w = []
    · subst hw
      have hy : IsLexeme y := by
        cases rest2 with
        | nil => exact h4.1
        | cons _ _ => exact h4.1
      simp only [layout, List.nil_append, List.append_assoc]
      exact clear_of_not_canMerge x y _ hy (h3 rfl)
    · exact clear_of_whitespace x w _ h2 hw

/-- The tokens of a well spaced text: one for each lexeme, then `EOF`. -/
theorem scanN_layout (LookupIdent : List Nat → TokenType) :
    ∀ ps : List (List Nat × List Nat), WellSpaced ps →
      (scanN LookupIdent (ps.length + 1) (layout ps)).1
        = ps.map (fun p => (⟨kindAlone LookupIdent p.1, p.1⟩ : Token)) ++ [⟨EOF, []⟩] := by
  intro ps
  induction ps with
  | nil => intro _; rfl
  | cons p rest ih =>
    intro h
    obtain ⟨x, w⟩ := p
    obtain ⟨hx, hw, hc, hrest⟩ := wellSpaced_cons x w rest h
    obtain ⟨h1, h2⟩ := scan_lexeme LookupIdent x (w ++ layout rest) hx hc
    have htok : (scan LookupIdent x).1 = ⟨kindAlone LookupIdent x, x⟩ := by
      have hT : ∀ tk : Token, tk.Literal = x → tk = ⟨tk.Typ, x⟩ := by
        intro tk htk
        cases tk
        simp only at htk
        rw [htk]
      rw [kindAlone_eq]
      exact hT _ h2
    simp only [layout, List.length_cons, List.map_cons, List.cons_append, List.append_assoc]
    rw [scanN, h1]
    simp only [drop_append_length, scanN_append_whitespace LookupIdent w _ hw, ih hrest, htok]

theorem kindAlone_symbol (LookupIdent : List Nat → TokenType) :
    ∀ e ∈ symbolTable, kindAlone LookupIdent e.1 = e.2 := by
  intro e he
  simp only [symbolTable, List.mem_cons, List.mem_singleton, List.not_mem_nil, or_false] at he
  rcases he with h | h | h | h | h | h | h | h | h | h | h | h | h | h | h | h | h | h | h <;>
    subst h <;> rfl

/-- The token of a lexeme tokenized alone is no `EOF` token, when the keyword
lookup never answers `EOF`. -/
theorem kindAlone_ne_EOF (LookupIdent : List Nat → TokenType)
    (hLI : ∀ s, LookupIdent s ≠ EOF) (x : List Nat) (hx : IsLexeme x) :
    kindAlone LookupIdent x ≠ EOF := by
  rcases hx with hs | hl | hd
  · obtain ⟨e, he, rfl⟩ := List.mem_map.1 hs
    have hne : ∀ e ∈ symbolTable, e.2 ≠ EOF := by decide
    rw [kindAlone_symbol LookupIdent e he]
    exact hne e he
  · obtain ⟨c, t, rfl⟩ := List.exists_cons_of_ne_nil hl.1
    have hcl : isLetter c = true := hl.2 c (List.mem_cons_self c t)
    rw [kindAlone_eq, scan_of_head _ _ (fun d hd => by
      simp only [List.head?_cons, Option.some.injEq] at hd
      subst hd; exact isWhitespace_eq_false_of_isLetter _ hcl),
      scanSwitch_letter _ c t hcl]
    exact hLI _
  · obtain ⟨c, t, rfl⟩ := List.exists_cons_of_ne_nil hd.1
    have hcl : isDigit c = true := hd.2 c (List.mem_cons_self c t)
    rw [kindAlone_eq, scan_of_head _ _ (fun d hd => by
      simp only [List.head?_cons, Option.some.injEq] at hd
      subst hd; exact isWhitespace_eq_false_of_isDigit _ hcl),
      scanSwitch_digit _ c t hcl]
    simp only
    split <;> exact TokenType.noConfusion

theorem wellSpaced_lexemes :
    ∀ ps : List (List Nat × List Nat), WellSpaced ps →
      (∀ p ∈ ps, IsLexeme p.1) ∧ ps.length ≤ (layout ps).length := by
  intro ps
  induction ps with
  | nil => intro _; exact ⟨fun _ h => absurd h (List.not_mem_nil _), Nat.le_refl _⟩
  | cons p rest ih =>
    intro h
    obtain ⟨x, w⟩ := p
    obtain ⟨hx, -, -, hrest⟩ := wellSpaced_cons x w rest h
    obtain ⟨h1, h2⟩ := ih hrest
    refine ⟨?_, ?_⟩
    · intro q hq
      rcases List.mem_cons.1 hq with hq | hq
      · rw [hq]; exact hx
      · exact h1 q hq
    · have hlen : 0 < x.length := List.length_pos.2 hx.ne_nil
      simp only [layout, List.length_cons, List.length_append]
      omega

/-! ## Rendering of the syntax tree -/

theorem Statement.Strings_eq (stmts : List Statement) :
    ∀ out : List Nat, Statement.Strings out stmts = out ++ (stmts.map Statement.String).flatten := by
  induction stmts with
  | nil => intro out; simp [Statement.Strings]
  | cons s rest ih => intro out; simp [Statement.Strings, ih]

theorem foldl_String_eq (stmts : List Statement) :
    ∀ out : List Nat, stmts.foldl (fun out s => out ++ s.String) out
      = out ++ (stmts.map Statement.String).flatten := by
  induction stmts with
  | nil => intro out; simp
  | cons s rest ih => intro out; simp [ih]

theorem Expression.Strings_eq_map (es : List Expression) :
    Expression.Strings es = es.map Expression.String := by
  induction es with
  | nil => simp [Expression.Strings]
  | cons e rest ih => simp [Expression.Strings, ih]

theorem stringsJoin_eq_intercalate (sep : List Nat) (elems : List (List Nat)) :
    stringsJoin elems sep = List.intercalate sep elems := by
  induction elems with
  | nil => rfl
  | cons a rest ih =>
    cases rest with
    | nil => simp [stringsJoin, List.intercalate]
    | cons b rest2 =>
      show a ++ sep ++ stringsJoin (b :: rest2) sep = _
      rw [ih]
      simp [List.intercalate, List.intersperse]

/-- The default case of the `switch`: when the first character `c` after the
leading whitespace is no double quote, letter, underscore, digit, dot, operator
or punctuation symbol and not the sentinel 0, `NextToken` returns an `ILLEGAL`
token and leaves the cursor on the character after `c`, for every byte `c`.
The literal is `string(c)`, which is the character itself when `c` is ASCII. -/
theorem NextToken_illegal (LookupIdent : List Nat → TokenType) (w rest : List Nat) (c : Nat)
    (hw : ∀ x ∈ w, x = 32 ∨ x = 9 ∨ x = 10 ∨ x = 13)
    (hws : ¬ (c = 32 ∨ c = 9 ∨ c = 10 ∨ c = 13))
    (hc : c ∉ [34, 95, 46, 61, 59, 40, 41, 44, 43, 123, 125, 91, 93, 58, 45, 33, 47, 42, 60, 62, 0])
    (hletter : ¬ ((97 ≤ c ∧ c ≤ 122) ∨ (65 ≤ c ∧ c ≤ 90)))
    (hdigit : ¬ (48 ≤ c ∧ c ≤ 57)) :
    NextToken LookupIdent (New (w ++ c :: rest))
        = some (⟨ILLEGAL, byteToString c⟩,
            { input := w ++ c :: rest, position := w.length + 1, readPosition := w.length + 2,
              currentChar := rest.headD 0 })
      ∧ (c < 128 → byteToString c = [c]) := by
  simp only [List.mem_cons, List.mem_singleton, List.not_mem_nil, or_false, not_or] at hc
  obtain ⟨h34, h95, h46, h61, h59, h40, h41, h44, h43, h123, h125, h91, h93, h58, h45, h33, h47,
    h42, h60, h62, h0⟩ := hc
  have hl : isLetter c = false := by
    rw [← Bool.not_eq_true, isLetter_iff]; omega
  have hg : isDigit c = false := by
    rw [← Bool.not_eq_true, isDigit_iff]; omega
  have e := NextToken_New_whitespace LookupIdent w (c :: rest)
    (fun x hx => by rw [isWhitespace_iff]; have := hw x hx; omega)
    (fun x hx => by
      simp only [List.head?_cons, Option.some.injEq] at hx
      subst hx
      rw [← Bool.not_eq_true, isWhitespace_iff]
      omega)
  have hdrop : (w ++ c :: rest).drop (w.length + 1) = rest := by
    have := drop_append_length (w ++ [c]) rest
    simp
  have hk : singleKind c = ILLEGAL := by
    simp only [singleKind, if_neg h59, if_neg h40, if_neg h41, if_neg h44, if_neg h43,
      if_neg h123, if_neg h125, if_neg h91, if_neg h93, if_neg h58, if_neg h45, if_neg h47,
      if_neg h42, if_neg h60, if_neg h62]
  refine ⟨?_, fun hascii => by simp only [byteToString, if_pos hascii]⟩
  rw [e, scanSwitch_other LookupIdent c rest h34 h61 h33 h0 hl hg, hk]
  simp only [atPos, hdrop]

/-! ## The claims -/

/-- C1, amended: on an input with no NUL byte, once a call of `NextToken` has
returned the `EOF` token with the empty literal, every later call returns the
`EOF` token with the empty literal. -/
theorem C1_EOF_is_final (LookupIdent : List Nat → TokenType) (input : List Nat)
    (h0 : 0 ∉ input) (k : Nat) (ts : List Token) (l : Lexer)
    (hk : nextTokens LookupIdent k (New input) = some (ts, l))
    (heof : ⟨EOF, []⟩ ∈ ts) :
    ∀ m : Nat, ∃ l1 : Lexer,
      nextTokens LookupIdent m l = some (List.replicate m ⟨EOF, []⟩, l1) := by
  intro m
  rw [New_eq_atPos, nextTokens_atPos, List.drop_zero] at hk
  simp only [Option.some.injEq, Prod.mk.injEq] at hk
  obtain ⟨h1, h2⟩ := hk
  subst h1 h2
  have hd := scanN_EOF_drop LookupIdent k input h0 heof
  have hm := nextTokens_atPos LookupIdent input m (0 + (scanN LookupIdent k input).2)
  rw [Nat.zero_add] at hm ⊢
  rw [hd, scanN_nil] at hm
  exact ⟨_, hm⟩

theorem C1_EOF_is_final_witness :
    ∃ l1 : Lexer,
      nextTokens lookupVar 4 (atPos (ascii "x;") 3)
        = some (List.replicate 4 ⟨EOF, []⟩, l1) :=
  C1_EOF_is_final lookupVar (ascii "x;") (by decide) 3
    [⟨IDENT, ascii "x"⟩, ⟨SEMICOLON, ascii ";"⟩, ⟨EOF, []⟩] (atPos (ascii "x;") 3)
    (by decide) (by decide) 4

/-- C1 fails as stated: on the input NUL, `a` the first call returns the `EOF`
token and the second call returns an identifier. -/
theorem C1_counterexample :
    (nextTokens lookupVar 2 (New [0, 97])).map Prod.fst
      = some [⟨EOF, []⟩, ⟨IDENT, [97]⟩] := by
  decide

/-- C2, amended: for every text with no double quote and no NUL byte, the first
token of the input made of a double quote, the text and a double quote is a
`STRING` token whose literal is the text. -/
theorem C2_string_literal (LookupIdent : List Nat → TokenType) (text : List Nat)
    (hq : 34 ∉ text) (h0 : 0 ∉ text) :
    (NextToken LookupIdent (New ([34] ++ text ++ [34]))).map Prod.fst = some ⟨STRING, text⟩ := by
  have e := NextToken_New_whitespace LookupIdent [] ([34] ++ text ++ [34])
    (fun _ h => absurd h (List.not_mem_nil _))
    (fun c hc => by
      simp only [List.singleton_append, List.cons_append, List.head?_cons,
        Option.some.injEq] at hc
      subst hc; rfl)
  have hrun := takeWhile_dropWhile_run inString text [34]
    (fun c hc => by
      rw [inString_iff]
      exact ⟨fun h => hq (h ▸ hc), fun h => h0 (h ▸ hc)⟩)
    (fun c hc => by
      simp only [List.head?_cons, Option.some.injEq] at hc
      subst hc; rfl)
  simp only [List.nil_append] at e
  rw [e]
  simp only [List.singleton_append, List.cons_append, List.nil_append, scanSwitch, if_true,
    hrun.1, Option.map_some']

theorem C2_string_literal_witness :
    34 ∉ ascii "foo bar" ∧ 0 ∉ ascii "foo bar" ∧
      (NextToken lookupVar (New ([34] ++ ascii "foo bar" ++ [34]))).map Prod.fst
        = some ⟨STRING, ascii "foo bar"⟩ :=
  ⟨by decide, by decide, C2_string_literal lookupVar (ascii "foo bar") (by decide) (by decide)⟩

/-- C2 fails as stated: the text `a`, NUL, `b` holds no double quote, and the
literal of the string token is `a`, not the text. -/
theorem C2_counterexample :
    34 ∉ [97, 0, 98] ∧
      (NextToken lookupVar (New ([34] ++ [97, 0, 98] ++ [34]))).map Prod.fst
        = some ⟨STRING, [97]⟩ ∧
      (NextToken lookupVar (New ([34] ++ [97, 0, 98] ++ [34]))).map Prod.fst
        ≠ some ⟨STRING, [97, 0, 98]⟩ := by
  decide

/-- C3: each operator or punctuation symbol, tokenized alone, gives one token of
its kind whose literal is the symbol, and the second call returns `EOF`. -/
theorem C3_symbol_in_isolation (LookupIdent : List Nat → TokenType) :
    ∀ e ∈ symbolTable,
      (nextTokens LookupIdent 2 (New e.1)).map Prod.fst = some [⟨e.2, e.1⟩, ⟨EOF, []⟩] := by
  intro e he
  simp only [symbolTable, List.mem_cons, List.mem_singleton, List.not_mem_nil, or_false] at he
  rcases he with h | h | h | h | h | h | h | h | h | h | h | h | h | h | h | h | h | h | h <;>
    subst h <;> rfl

theorem C3_symbol_in_isolation_witness :
    (ascii "!=", NOT_EQ) ∈ symbolTable ∧
      (nextTokens lookupVar 2 (New (ascii "!="))).map Prod.fst
        = some [⟨NOT_EQ, ascii "!="⟩, ⟨EOF, []⟩] :=
  ⟨by decide, C3_symbol_in_isolation lookupVar (ascii "!=", NOT_EQ) (by decide)⟩

/-- C4: when the first character after the leading whitespace is a digit or `.`,
the literal of the first token is the maximal run of digits and dots that
starts there, and its kind is `FLOAT` if the run holds a dot and `INT` if not. -/
theorem C4_number_literal (LookupIdent : List Nat → TokenType) (w run rest : List Nat)
    (hw : ∀ c ∈ w, c = 32 ∨ c = 9 ∨ c = 10 ∨ c = 13)
    (hne : run ≠ [])
    (hrun : ∀ c ∈ run, (48 ≤ c ∧ c ≤ 57) ∨ c = 46)
    (hrest : ∀ c, rest.head? = some c → ¬ ((48 ≤ c ∧ c ≤ 57) ∨ c = 46)) :
    (NextToken LookupIdent (New (w ++ run ++ rest))).map Prod.fst
      = some ⟨if 46 ∈ run then FLOAT else INT, run⟩ := by
  obtain ⟨c, t, rfl⟩ := List.exists_cons_of_ne_nil hne
  have hc : isDigit c = true := (isDigit_iff c).2 (hrun c (List.mem_cons_self c t))
  have htake := (takeWhile_dropWhile_run isDigit (c :: t) rest
    (fun x hx => (isDigit_iff x).2 (hrun x hx))
    (fun x hx => by rw [← Bool.not_eq_true, isDigit_iff]; exact hrest x hx)).1
  have e := NextToken_New_whitespace LookupIdent w (c :: t ++ rest)
    (fun x hx => by rw [isWhitespace_iff]; have := hw x hx; omega)
    (fun x hx => by
      simp only [List.cons_append, List.head?_cons, Option.some.injEq] at hx
      subst hx
      rw [isDigit_iff] at hc
      rw [← Bool.not_eq_true, isWhitespace_iff]
      omega)
  rw [List.append_assoc, e]
  rw [List.cons_append] at htake ⊢
  rw [scanSwitch_digit LookupIdent c (t ++ rest) hc, htake]
  rfl

theorem C4_number_literal_witness :
    (NextToken lookupVar (New ([] ++ ascii "5.5" ++ []))).map Prod.fst
        = some ⟨FLOAT, ascii "5.5"⟩
      ∧ (NextToken lookupVar (New ([] ++ ascii "5.5.5" ++ []))).map Prod.fst
        = some ⟨FLOAT, ascii "5.5.5"⟩
      ∧ (NextToken lookupVar (New ([] ++ ascii "." ++ []))).map Prod.fst
        = some ⟨FLOAT, ascii "."⟩
      ∧ (NextToken lookupVar (New (ascii " \t" ++ ascii "10" ++ ascii " == 10;"))).map Prod.fst
        = some ⟨INT, ascii "10"⟩ :=
  ⟨C4_number_literal lookupVar [] (ascii "5.5") [] (by decide) (by decide) (by decide) (by decide),
   C4_number_literal lookupVar [] (ascii "5.5.5") [] (by decide) (by decide) (by decide)
     (by decide),
   C4_number_literal lookupVar [] (ascii ".") [] (by decide) (by decide) (by decide) (by decide),
   C4_number_literal lookupVar (ascii " \t") (ascii "10") (ascii " == 10;") (by decide)
     (by decide) (by decide) (by decide)⟩

/-- C5: when the first character after the leading whitespace is a letter or `_`,
the literal of the first token is the maximal run of letters and underscores
that starts there, its kind is `LookupIdent` of that literal, and the call
leaves the cursor on the first character after the run. -/
theorem C5_identifier (LookupIdent : List Nat → TokenType) (w run rest : List Nat)
    (hw : ∀ c ∈ w, c = 32 ∨ c = 9 ∨ c = 10 ∨ c = 13)
    (hne : run ≠ [])
    (hrun : ∀ c ∈ run, (97 ≤ c ∧ c ≤ 122) ∨ (65 ≤ c ∧ c ≤ 90) ∨ c = 95)
    (hrest : ∀ c, rest.head? = some c → ¬ ((97 ≤ c ∧ c ≤ 122) ∨ (65 ≤ c ∧ c ≤ 90) ∨ c = 95)) :
    NextToken LookupIdent (New (w ++ run ++ rest))
      = some (⟨LookupIdent run, run⟩,
          { input := w ++ run ++ rest, position := w.length + run.length,
            readPosition := w.length + run.length + 1, currentChar := rest.headD 0 }) := by
  obtain ⟨c, t, rfl⟩ := List.exists_cons_of_ne_nil hne
  have hc : isLetter c = true := (isLetter_iff c).2 (hrun c (List.mem_cons_self c t))
  have htake := (takeWhile_dropWhile_run isLetter (c :: t) rest
    (fun x hx => (isLetter_iff x).2 (hrun x hx))
    (fun x hx => by rw [← Bool.not_eq_true, isLetter_iff]; exact hrest x hx)).1
  have e := NextToken_New_whitespace LookupIdent w (c :: t ++ rest)
    (fun x hx => by rw [isWhitespace_iff]; have := hw x hx; omega)
    (fun x hx => by
      simp only [List.cons_append, List.head?_cons, Option.some.injEq] at hx
      subst hx
      rw [isLetter_iff] at hc
      rw [← Bool.not_eq_true, isWhitespace_iff]
      omega)
  have hdrop : (w ++ (c :: t) ++ rest).drop (w.length + (c :: t).length) = rest := by
    rw [← List.length_append, drop_append_length]
  rw [List.append_assoc, e]
  rw [List.cons_append] at htake ⊢
  rw [scanSwitch_letter LookupIdent c (t ++ rest) hc, htake]
  simp only [atPos]
  rw [← List.cons_append, ← List.append_assoc, hdrop]

theorem C5_identifier_witness :
    NextToken lookupVar (New (ascii "  " ++ ascii "five_x" ++ ascii "1 = 5;"))
      = some (⟨lookupVar (ascii "five_x"), ascii "five_x"⟩,
          { input := ascii "  " ++ ascii "five_x" ++ ascii "1 = 5;",
            position := (ascii "  ").length + (ascii "five_x").length,
            readPosition := (ascii "  ").length + (ascii "five_x").length + 1,
            currentChar := (ascii "1 = 5;").headD 0 }) :=
  C5_identifier lookupVar (ascii "  ") (ascii "five_x") (ascii "1 = 5;") (by decide) (by decide)
    (by decide) (by decide)

/-- C6, the code at the failing input: on the two bytes 0xC3 0xA9 (the UTF-8
form of U+00E9) the first character 0xC3 is none of the excluded ones;
`NextToken` returns an `ILLEGAL` token and leaves the cursor on the next
character, as the claim says, but the literal is the two bytes 0xC3 0x83 that
`string(ch)` makes in `newToken`, not the one character of the source. -/
theorem C6_non_ascii_literal :
    (195 : Nat) ∉ [34, 95, 46, 61, 59, 40, 41, 44, 43, 123, 125, 91, 93, 58, 45, 33, 47, 42, 60,
        62, 0, 32, 9, 10, 13]
      ∧ isLetter 195 = false ∧ isDigit 195 = false
      ∧ NextToken lookupVar (New [195, 169])
        = some (⟨ILLEGAL, [195, 131]⟩,
            { input := [195, 169], position := 1, readPosition := 2, currentChar := 169 })
      ∧ (NextToken lookupVar (New [195, 169])).map Prod.fst ≠ some ⟨ILLEGAL, [195]⟩
      ∧ newToken ILLEGAL 195 = ⟨ILLEGAL, [195, 131]⟩
      ∧ slice [195, 169] 0 1 = some [195] := by
  decide

/-- C7: whitespace in front of an input changes no token: the token sequences of
`w ++ s` and of `s` are the same, and so are the tokens of any number of calls. -/
theorem C7_leading_whitespace (LookupIdent : List Nat → TokenType) (w s : List Nat)
    (hw : ∀ c ∈ w, c = 32 ∨ c = 9 ∨ c = 10 ∨ c = 13) :
    (∃ ts : List Token, tokenize LookupIdent s = some ts ∧
        tokenize LookupIdent (w ++ s) = some ts)
      ∧ ∀ k : Nat, ∃ (ts : List Token) (l1 l2 : Lexer),
          nextTokens LookupIdent k (New s) = some (ts, l1) ∧
          nextTokens LookupIdent k (New (w ++ s)) = some (ts, l2) := by
  have hw1 : ∀ c ∈ w, isWhitespace c = true := fun c hc => by
    rw [isWhitespace_iff]; have := hw c hc; omega
  constructor
  · obtain ⟨k, ts, t, hk, hts, hl, hne, ht, htok⟩ := tokenize_eq LookupIdent s
    refine ⟨ts ++ [t], htok, ?_⟩
    have hn := nextTokens_atPos LookupIdent (w ++ s) (k + 1) 0
    rw [List.drop_zero, scanN_append_whitespace LookupIdent w s hw1, hts] at hn
    unfold tokenize
    rw [New_eq_atPos]
    exact tokensUntilEOF_of_nextTokens LookupIdent k (w ++ s).length _ _ ts t
      (by rw [List.length_append]; omega) hn hl hne ht
  · intro k
    have h1 := nextTokens_atPos LookupIdent s k 0
    have h2 := nextTokens_atPos LookupIdent (w ++ s) k 0
    rw [← New_eq_atPos, List.drop_zero] at h1 h2
    rw [scanN_append_whitespace LookupIdent w s hw1] at h2
    exact ⟨_, _, _, h1, h2⟩

theorem C7_leading_whitespace_witness :
    (∃ ts : List Token, tokenize lookupVar (ascii "var x;") = some ts ∧
        tokenize lookupVar (ascii " \t\r\n" ++ ascii "var x;") = some ts)
      ∧ ∃ (ts : List Token) (l1 l2 : Lexer),
          nextTokens lookupVar 5 (New (ascii "var x;")) = some (ts, l1) ∧
          nextTokens lookupVar 5 (New (ascii " \t\r\n" ++ ascii "var x;")) = some (ts, l2) :=
  ⟨(C7_leading_whitespace lookupVar (ascii " \t\r\n") (ascii "var x;") (by decide)).1,
   (C7_leading_whitespace lookupVar (ascii " \t\r\n") (ascii "var x;") (by decide)).2 5⟩

/-- C8: after `=` the next character decides between `EQ` with literal `==`, the
cursor then standing after the second `=`, and `ASSIGN` with literal `=`, the
cursor then standing on the first character of `s`; the same for `!` with
`NOT_EQ` and `BANG`.  The lookahead `peekChar` returns the first character of
`s` (0 when `s` is empty). -/
theorem C8_two_character_operators (LookupIdent : List Nat → TokenType) (s : List Nat) :
    NextToken LookupIdent (New (61 :: s))
        = (if s.head? = some 61 then
            some (⟨EQ, [61, 61]⟩,
              { input := 61 :: s, position := 2, readPosition := 3,
                currentChar := (s.drop 1).headD 0 })
          else
            some (⟨ASSIGN, [61]⟩,
              { input := 61 :: s, position := 1, readPosition := 2, currentChar := s.headD 0 }))
      ∧ NextToken LookupIdent (New (33 :: s))
        = (if s.head? = some 61 then
            some (⟨NOT_EQ, [33, 61]⟩,
              { input := 33 :: s, position := 2, readPosition := 3,
                currentChar := (s.drop 1).headD 0 })
          else
            some (⟨BANG, [33]⟩,
              { input := 33 :: s, position := 1, readPosition := 2, currentChar := s.headD 0 }))
      ∧ peekChar (New (61 :: s)) = s.headD 0 ∧ peekChar (New (33 :: s)) = s.headD 0 := by
  have e1 := NextToken_New_whitespace LookupIdent [] (61 :: s) (fun _ h => absurd h (List.not_mem_nil _))
    (fun c hc => by simp only [List.head?_cons, Option.some.injEq] at hc; subst hc; rfl)
  have e2 := NextToken_New_whitespace LookupIdent [] (33 :: s) (fun _ h => absurd h (List.not_mem_nil _))
    (fun c hc => by simp only [List.head?_cons, Option.some.injEq] at hc; subst hc; rfl)
  simp only [List.nil_append, List.length_nil, Nat.zero_add] at e1 e2
  refine ⟨?_, ?_, ?_, ?_⟩
  · rw [e1]
    cases s with
    | nil => rfl
    | cons c t =>
      by_cases hc : c = 61
      · subst hc; rfl
      · have h1 : ¬ (c :: t).head? = some 61 := by simpa using hc
        have h2 : ¬ (c :: t).headD 0 = 61 := by simpa using hc
        simp only [scanSwitch, if_neg h1, if_neg h2]
        rfl
  · rw [e2]
    cases s with
    | nil => rfl
    | cons c t =>
      by_cases hc : c = 61
      · subst hc; rfl
      · have h1 : ¬ (c :: t).head? = some 61 := by simpa using hc
        have h2 : ¬ (c :: t).headD 0 = 61 := by simpa using hc
        simp only [scanSwitch, if_neg h1, if_neg h2]
        rfl
  · rw [New_eq_atPos, peekChar_atPos]; rfl
  · rw [New_eq_atPos, peekChar_atPos]; rfl

/-- C9: for every text with no double quote and no NUL byte, the unterminated
input (a double quote, then the text) and the terminated one (a double quote,
the text, a double quote) have the same token sequence: a `STRING` token whose
literal is the text, then `EOF`. -/
theorem C9_unterminated_string (LookupIdent : List Nat → TokenType) (text : List Nat)
    (hq : 34 ∉ text) (h0 : 0 ∉ text) :
    tokenize LookupIdent ([34] ++ text) = some [⟨STRING, text⟩, ⟨EOF, []⟩]
      ∧ tokenize LookupIdent ([34] ++ text ++ [34]) = some [⟨STRING, text⟩, ⟨EOF, []⟩] := by
  have key : ∀ close : List Nat, close = [] ∨ close = [34] →
      tokenize LookupIdent (34 :: (text ++ close)) = some ([⟨STRING, text⟩] ++ [⟨EOF, []⟩]) := by
    intro close hclose
    have hn := nextTokens_atPos LookupIdent (34 :: (text ++ close)) 2 0
    rw [List.drop_zero, scanN_string LookupIdent text close hq h0 hclose] at hn
    unfold tokenize
    rw [New_eq_atPos]
    exact tokensUntilEOF_of_nextTokens LookupIdent 1 _ _ _ [⟨STRING, text⟩] ⟨EOF, []⟩
      (by simp) hn rfl
      (fun x hx => by rw [List.mem_singleton.1 hx]; exact TokenType.noConfusion) rfl
  constructor
  · have := key [] (Or.inl rfl)
    simpa using this
  · have := key [34] (Or.inr rfl)
    simpa using this

theorem C9_unterminated_string_witness :
    tokenize lookupVar ([34] ++ ascii "foo bar") = some [⟨STRING, ascii "foo bar"⟩, ⟨EOF, []⟩]
      ∧ tokenize lookupVar ([34] ++ ascii "foo bar" ++ [34])
        = some [⟨STRING, ascii "foo bar"⟩, ⟨EOF, []⟩] :=
  C9_unterminated_string lookupVar (ascii "foo bar") (by decide) (by decide)

/-- C10: every call of `NextToken` returns and moves the cursor forward, and on
an input of length `n` one of the first `n + 1` calls returns an `EOF` token:
at most `n` tokens that are not `EOF` come before it, and they are the token
sequence of the input. -/
theorem C10_token_sequence_finite (LookupIdent : List Nat → TokenType) (input : List Nat) :
    (∀ k : Nat, ∃ (ts : List Token) (l : Lexer) (t : Token) (l1 : Lexer),
        nextTokens LookupIdent k (New input) = some (ts, l) ∧
        NextToken LookupIdent l = some (t, l1) ∧ l.position < l1.position)
      ∧ ∃ (k : Nat) (ts : List Token) (t : Token) (l : Lexer), k ≤ input.length ∧
          nextTokens LookupIdent (k + 1) (New input) = some (ts ++ [t], l) ∧ ts.length = k ∧
          (∀ x ∈ ts, x.Typ ≠ EOF) ∧ t.Typ = EOF ∧
          tokenize LookupIdent input = some (ts ++ [t]) := by
  constructor
  · intro k
    have hpos := scan_pos LookupIdent (input.drop (0 + (scanN LookupIdent k (input.drop 0)).2))
    have h1 := nextTokens_atPos LookupIdent input k 0
    have h2 := NextToken_atPos LookupIdent input (0 + (scanN LookupIdent k (input.drop 0)).2)
    rw [← New_eq_atPos] at h1
    exact ⟨_, _, _, _, h1, h2, by simp only [atPos]; omega⟩
  · obtain ⟨k, ts, t, hk, hts, hl, hne, ht, htok⟩ := tokenize_eq LookupIdent input
    have h1 := nextTokens_atPos LookupIdent input (k + 1) 0
    rw [← New_eq_atPos, List.drop_zero, hts] at h1
    exact ⟨k, ts, t, _, hk, h1, hl, hne, ht, htok⟩

/-- C11: for every input and every number `k`, the first `k` calls of `NextToken`
after `New` all return a token, and the cursor then stands at most `k` positions
past the end of the input; in every state the lexer reaches, `readString`,
`readIdentifier` and `readNumber`, called as the `switch` calls them, take a
slice that is in range. -/
theorem C11_never_aborts (LookupIdent : List Nat → TokenType) (input : List Nat) (k : Nat) :
    (∃ (ts : List Token) (l : Lexer),
        nextTokens LookupIdent k (New input) = some (ts, l) ∧ ts.length = k ∧
        l.position ≤ input.length + k ∧ l.readPosition = l.position + 1)
      ∧ ∀ j : Nat,
          (((readChar^[j]) (New input)).currentChar = 34 →
            ∃ (s : List Nat) (l1 : Lexer), readString ((readChar^[j]) (New input)) = some (s, l1))
          ∧ (isLetter ((readChar^[j]) (New input)).currentChar = true →
            ∃ (s : List Nat) (l1 : Lexer),
              readIdentifier ((readChar^[j]) (New input)) = some (s, l1))
          ∧ (isDigit ((readChar^[j]) (New input)).currentChar = true →
            ∃ (s : List Nat) (l1 : Lexer),
              readNumber ((readChar^[j]) (New input)) = some (s, l1)) := by
  constructor
  · have h1 := nextTokens_atPos LookupIdent input k 0
    have h2 := scanN_le LookupIdent input k 0
    rw [← New_eq_atPos] at h1
    refine ⟨_, _, h1, length_scanN LookupIdent k _, ?_, rfl⟩
    simp only [atPos]
    omega
  · intro j
    rw [New_eq_atPos, iterate_readChar_atPos, Nat.zero_add]
    refine ⟨fun h => ?_, fun h => ?_, fun h => ?_⟩
    · have hp := lt_length_of_currentChar_ne_zero input j (by rw [h]; decide)
      exact ⟨_, _, readString_atPos input j hp⟩
    · have hp := lt_length_of_currentChar_ne_zero input j (fun h0 => by rw [h0] at h; exact absurd h (by decide))
      exact ⟨_, _, readIdentifier_atPos input j (Nat.le_of_lt hp)⟩
    · have hp := lt_length_of_currentChar_ne_zero input j (fun h0 => by rw [h0] at h; exact absurd h (by decide))
      exact ⟨_, _, readNumber_atPos input j (Nat.le_of_lt hp)⟩

/-- C12, amended: the tree of `if (x) { return x; }` with no alternative (the
condition is the identifier `x`, the consequence a block with one return
statement whose token literal is `return` and whose value is the identifier
`x`) renders to exactly `ifx return x;`, with no else segment, whatever the
other tokens stored in it. -/
theorem C12_if_without_alternative (tIf tx tRet tBlock : Token) (kRet : TokenType) :
    (Expression.IfExpression tIf (.Identifier ⟨tx, ascii "x"⟩)
      (.mk tBlock [.ReturnStatement ⟨kRet, ascii "return"⟩ (some (.Identifier ⟨tRet, ascii "x"⟩))])
      none).String = ascii "ifx return x;" := by
  rfl

/-- C12 fails as stated: the tree renders to `ifx return x;`, which is not
`if(x) return x;`. -/
theorem C12_counterexample :
    ifReturnX.String = ascii "ifx return x;" ∧ ifReturnX.String ≠ ascii "if(x) return x;" := by
  decide

/-- C13: an infix expression renders to `(`, the left operand, a space, the
operator, a space, the right operand and `)`; the expression statement of
`5 + 5` renders to `(5 + 5)`. -/
theorem C13_infix (tok : Token) (left right : Expression) (op : List Nat) :
    (Expression.InfixExpression tok left op right).String
        = ascii "(" ++ left.String ++ ascii " " ++ op ++ ascii " " ++ right.String ++ ascii ")"
      ∧ (Statement.ExpressionStatement ⟨INT, ascii "5"⟩
          (some (.InfixExpression ⟨PLUS, ascii "+"⟩ (.IntegerLiteral ⟨INT, ascii "5"⟩ 5) (ascii "+")
            (.IntegerLiteral ⟨INT, ascii "5"⟩ 5)))).String = ascii "(5 + 5)" := by
  constructor
  · simp [Expression.String]
  · decide

/-- C14: an if expression renders to `if`, the condition, a space and the
consequence, followed by `else ` and the alternative when there is one and by
nothing when there is none. -/
theorem C14_if (tok : Token) (cond : Expression) (cons : BlockStatement)
    (alt : Option BlockStatement) :
    (Expression.IfExpression tok cond cons alt).String
      = ascii "if" ++ cond.String ++ ascii " " ++ cons.String
        ++ (match alt with
            | some a => ascii "else " ++ a.String
            | none => []) := by
  cases alt <;> simp [Expression.String]

/-- C15: a var statement renders to its token literal, a space, the name, ` = `,
the value and `;`, and a return statement to its token literal, a space, the
value and `;`, where an absent value renders to nothing: `var x = ;` and
`return ;`. -/
theorem C15_var_return (tok : Token) (name : Identifier) (value : Option Expression) :
    (Statement.VarStatement tok name value).String
        = (Statement.VarStatement tok name value).TokenLiteral ++ ascii " " ++ name.String
          ++ ascii " = " ++ (match value with
            | some v => v.String
            | none => []) ++ ascii ";"
      ∧ (Statement.ReturnStatement tok value).String
        = (Statement.ReturnStatement tok value).TokenLiteral ++ ascii " "
          ++ (match value with
            | some v => v.String
            | none => []) ++ ascii ";"
      ∧ (Statement.VarStatement ⟨VAR, ascii "var"⟩ ⟨⟨IDENT, ascii "x"⟩, ascii "x"⟩ none).String
        = ascii "var x = ;"
      ∧ (Statement.ReturnStatement ⟨RETURN, ascii "return"⟩ none).String = ascii "return ;" := by
  refine ⟨?_, ?_, by decide, by decide⟩
  · cases value <;> simp [Statement.String, Statement.TokenLiteral]
  · cases value <;> simp [Statement.String, Statement.TokenLiteral]

/-- C16: a program and a block statement both render to the concatenation of the
renderings of their statements, in order: nothing for no statement, the
rendering of `a` then that of `b` for `a ++ b`, and the same text for a block
as for the program of its statements. -/
theorem C16_concatenation :
    Program.String ⟨[]⟩ = []
      ∧ (∀ tok : Token, (BlockStatement.mk tok []).String = [])
      ∧ (∀ a b : List Statement,
          Program.String ⟨a ++ b⟩ = Program.String ⟨a⟩ ++ Program.String ⟨b⟩)
      ∧ (∀ (tok : Token) (a b : List Statement),
          (BlockStatement.mk tok (a ++ b)).String
            = (BlockStatement.mk tok a).String ++ (BlockStatement.mk tok b).String)
      ∧ (∀ (tok : Token) (stmts : List Statement),
          (BlockStatement.mk tok stmts).String = Program.String ⟨stmts⟩)
      ∧ (∀ stmts : List Statement,
          Program.String ⟨stmts⟩ = (stmts.map Statement.String).flatten) := by
  refine ⟨rfl, fun _ => ?_, fun a b => ?_, fun tok a b => ?_, fun tok stmts => ?_, fun stmts => ?_⟩
  · simp [BlockStatement.String, Statement.Strings]
  · simp [Program.String, foldl_String_eq]
  · simp [BlockStatement.String, Statement.Strings_eq]
  · simp [BlockStatement.String, Statement.Strings_eq, Program.String, foldl_String_eq]
  · simp [Program.String, foldl_String_eq]

/-- C17: a function literal, a call and an array literal render their children
in order, joined by `, ` inside the delimiters: with no child the delimiters
are adjacent, with one child there is no separator. -/
theorem C17_lists (tok : Token) (params : List Identifier) (body : BlockStatement)
    (f a b : Expression) (args : List Expression) (x : Identifier) :
    (Expression.FunctionLiteral tok params body).String
        = (Expression.FunctionLiteral tok params body).TokenLiteral ++ ascii "("
          ++ List.intercalate (ascii ", ") (params.map Identifier.String) ++ ascii ")"
          ++ body.String
      ∧ (Expression.CallExpression tok f args).String
        = f.String ++ ascii "(" ++ List.intercalate (ascii ", ") (args.map Expression.String)
          ++ ascii ")"
      ∧ (Expression.ArrayLiteral tok args).String
        = ascii "[" ++ List.intercalate (ascii ", ") (args.map Expression.String) ++ ascii "]"
      ∧ (Expression.FunctionLiteral tok [] body).String = tok.Literal ++ ascii "()" ++ body.String
      ∧ (Expression.CallExpression tok f []).String = f.String ++ ascii "()"
      ∧ (Expression.ArrayLiteral tok []).String = ascii "[]"
      ∧ (Expression.FunctionLiteral tok [x] body).String
        = tok.Literal ++ ascii "(" ++ x.String ++ ascii ")" ++ body.String
      ∧ (Expression.CallExpression tok f [a]).String
        = f.String ++ ascii "(" ++ a.String ++ ascii ")"
      ∧ (Expression.ArrayLiteral tok [a]).String = ascii "[" ++ a.String ++ ascii "]"
      ∧ (Expression.ArrayLiteral tok [a, b]).String
        = ascii "[" ++ a.String ++ ascii ", " ++ b.String ++ ascii "]" := by
  refine ⟨?_, ?_, ?_, ?_, ?_, ?_, ?_, ?_, ?_, ?_⟩
  · simp [Expression.String, Expression.TokenLiteral, stringsJoin_eq_intercalate]
  · simp [Expression.String, Expression.Strings_eq_map, stringsJoin_eq_intercalate]
  · simp [Expression.String, Expression.Strings_eq_map, stringsJoin_eq_intercalate]
  · simp [Expression.String, stringsJoin]; rfl
  · simp [Expression.String, Expression.Strings, stringsJoin]; rfl
  · rfl
  · simp [Expression.String, stringsJoin]
  · simp [Expression.String, Expression.Strings, stringsJoin]
  · simp [Expression.String, Expression.Strings, stringsJoin]
  · simp [Expression.String, Expression.Strings, stringsJoin]

/-- C18: for every ASCII input with no double quote and no NUL byte, the literals
of the tokens returned before the first `EOF` token, put together in order, are
the input with every space, tab, newline and carriage return removed.  The
keyword lookup is taken never to answer `EOF`. -/
theorem C18_no_character_lost (LookupIdent : List Nat → TokenType)
    (hLI : ∀ s, LookupIdent s ≠ EOF) (input : List Nat)
    (hascii : ∀ c ∈ input, c < 128) (hq : 34 ∉ input) (h0 : 0 ∉ input) :
    ∃ (ts : List Token) (t : Token),
      tokenize LookupIdent input = some (ts ++ [t]) ∧ t.Typ = EOF ∧ (∀ x ∈ ts, x.Typ ≠ EOF) ∧
      (ts.map Token.Literal).flatten
        = input.filter (fun c => decide (c ≠ 32 ∧ c ≠ 9 ∧ c ≠ 10 ∧ c ≠ 13)) := by
  obtain ⟨k, ts, t, _, hts, hl, hne, ht, htok⟩ := tokenize_eq LookupIdent input
  refine ⟨ts, t, htok, ht, hne, ?_⟩
  rw [literals_scanN LookupIdent hLI k input ts t hascii hq h0 hts hl hne ht]
  congr 1
  funext c
  rw [Bool.eq_iff_iff]
  simp only [Bool.not_eq_true', decide_eq_true_eq, ← Bool.not_eq_true, isWhitespace_iff]
  omega

theorem C18_no_character_lost_witness :
    ∃ (ts : List Token) (t : Token),
      tokenize lookupVar (ascii "var five = 5;") = some (ts ++ [t]) ∧ t.Typ = EOF ∧
      (∀ x ∈ ts, x.Typ ≠ EOF) ∧
      (ts.map Token.Literal).flatten
        = (ascii "var five = 5;").filter (fun c => decide (c ≠ 32 ∧ c ≠ 9 ∧ c ≠ 10 ∧ c ≠ 13)) :=
  C18_no_character_lost lookupVar
    (fun s => by unfold lookupVar; split <;> exact TokenType.noConfusion)
    (ascii "var five = 5;") (by decide) (by decide) (by decide)

/-- C19: a list of lexemes (symbols, runs of letters and underscores, runs of
digits and dots), each followed by a run of whitespace that is empty only where
the lexeme cannot merge with the next one, has one token for each lexeme, in
order, whose literal is the lexeme and whose kind is the kind the lexeme gets
alone, and then `EOF`; this is the token sequence of the text when the keyword
lookup never answers `EOF`. -/
theorem C19_compositional (LookupIdent : List Nat → TokenType)
    (ps : List (List Nat × List Nat)) (h : WellSpaced ps) :
    (∃ l : Lexer,
        nextTokens LookupIdent (ps.length + 1) (New (layout ps))
          = some (ps.map (fun p => (⟨kindAlone LookupIdent p.1, p.1⟩ : Token)) ++ [⟨EOF, []⟩], l))
      ∧ ((∀ s, LookupIdent s ≠ EOF) →
          tokenize LookupIdent (layout ps)
            = some (ps.map (fun p => (⟨kindAlone LookupIdent p.1, p.1⟩ : Token)) ++ [⟨EOF, []⟩])) := by
  have hn := nextTokens_atPos LookupIdent (layout ps) (ps.length + 1) 0
  rw [List.drop_zero, scanN_layout LookupIdent ps h] at hn
  constructor
  · rw [New_eq_atPos]
    exact ⟨_, hn⟩
  · intro hLI
    obtain ⟨h1, h2⟩ := wellSpaced_lexemes ps h
    unfold tokenize
    rw [New_eq_atPos]
    refine tokensUntilEOF_of_nextTokens LookupIdent ps.length _ _ _ _ ⟨EOF, []⟩ h2 hn
      (by simp) ?_ rfl
    intro x hx
    obtain ⟨p, hp, rfl⟩ := List.mem_map.1 hx
    exact kindAlone_ne_EOF LookupIdent hLI p.1 (h1 p hp)

theorem C19_compositional_witness :
    (∃ l : Lexer,
        nextTokens lookupVar 5 (New (ascii "10 == 10;"))
          = some ([⟨INT, ascii "10"⟩, ⟨EQ, ascii "=="⟩, ⟨INT, ascii "10"⟩, ⟨SEMICOLON, ascii ";"⟩,
              ⟨EOF, []⟩], l))
      ∧ tokenize lookupVar (ascii "var five = 5;")
          = some [⟨lookupVar (ascii "var"), ascii "var"⟩, ⟨lookupVar (ascii "five"), ascii "five"⟩,
              ⟨ASSIGN, ascii "="⟩, ⟨INT, ascii "5"⟩, ⟨SEMICOLON, ascii ";"⟩, ⟨EOF, []⟩] :=
  ⟨(C19_compositional lookupVar
      [(ascii "10", ascii " "), (ascii "==", ascii " "), (ascii "10", []), (ascii ";", [])]
      (by simp [WellSpaced, IsLexeme, IsSymbol, IsLetterRun, IsDigitRun, IsWhitespaceRun, CanMerge,
        symbolTable, ascii, isLetter, isDigit, isWhitespace])).1,
   (C19_compositional lookupVar
      [(ascii "var", ascii " "), (ascii "five", ascii " "), (ascii "=", ascii " "),
        (ascii "5", []), (ascii ";", [])]
      (by simp [WellSpaced, IsLexeme, IsSymbol, IsLetterRun, IsDigitRun, IsWhitespaceRun, CanMerge,
        symbolTable, ascii, isLetter, isDigit, isWhitespace])).2
      (fun s => by unfold lookupVar; split <;> exact TokenType.noConfusion)⟩

/-- C20: the token literal of a program is empty when it has no statement and is
the token literal of its first statement otherwise; the token literal of every
other node is the literal of the token stored in the node. -/
theorem C20_token_literal :
    Program.TokenLiteral ⟨[]⟩ = []
      ∧ (∀ (s : Statement) (rest : List Statement),
          Program.TokenLiteral ⟨s :: rest⟩ = s.TokenLiteral)
      ∧ (∀ (tok : Token) (name : Identifier) (value : Option Expression),
          (Statement.VarStatement tok name value).TokenLiteral = tok.Literal)
      ∧ (∀ (tok : Token) (value : Option Expression),
          (Statement.ReturnStatement tok value).TokenLiteral = tok.Literal)
      ∧ (∀ (tok : Token) (e : Option Expression),
          (Statement.ExpressionStatement tok e).TokenLiteral = tok.Literal)
      ∧ (∀ (tok : Token) (stmts : List Statement),
          (BlockStatement.mk tok stmts).TokenLiteral = tok.Literal
            ∧ (Statement.BlockStatement (.mk tok stmts)).TokenLiteral = tok.Literal)
      ∧ (∀ i : Identifier,
          i.TokenLiteral = i.Token.Literal ∧ (Expression.Identifier i).TokenLiteral = i.Token.Literal)
      ∧ (∀ (tok : Token) (v : Int), (Expression.IntegerLiteral tok v).TokenLiteral = tok.Literal)
      ∧ (∀ (tok : Token) (v : Nat), (Expression.FloatLiteral tok v).TokenLiteral = tok.Literal)
      ∧ (∀ (tok : Token) (v : List Nat),
          (Expression.StringLiteral tok v).TokenLiteral = tok.Literal)
      ∧ (∀ (tok : Token) (v : Bool), (Expression.Boolean tok v).TokenLiteral = tok.Literal)
      ∧ (∀ (tok : Token) (op : List Nat) (r : Expression),
          (Expression.PrefixExpression tok op r).TokenLiteral = tok.Literal)
      ∧ (∀ (tok : Token) (l : Expression) (op : List Nat) (r : Expression),
          (Expression.InfixExpression tok l op r).TokenLiteral = tok.Literal)
      ∧ (∀ (tok : Token) (c : Expression) (b : BlockStatement) (a : Option BlockStatement),
          (Expression.IfExpression tok c b a).TokenLiteral = tok.Literal)
      ∧ (∀ (tok : Token) (ps : List Identifier) (b : BlockStatement),
          (Expression.FunctionLiteral tok ps b).TokenLiteral = tok.Literal)
      ∧ (∀ (tok : Token) (f : Expression) (args : List Expression),
          (Expression.CallExpression tok f args).TokenLiteral = tok.Literal)
      ∧ (∀ (tok : Token) (c : Expression) (b : BlockStatement),
          (Expression.ForExpression tok c b).TokenLiteral = tok.Literal)
      ∧ (∀ (tok : Token) (es : List Expression),
          (Expression.ArrayLiteral tok es).TokenLiteral = tok.Literal)
      ∧ (∀ (tok : Token) (ps : List (Expression × Expression)),
          (Expression.HashLiteral tok ps).TokenLiteral = tok.Literal)
      ∧ (∀ (tok : Token) (l i : Expression),
          (Expression.IndexExpression tok l i).TokenLiteral = tok.Literal) := by
  refine ⟨rfl, fun _ _ => by simp [Program.TokenLiteral], fun _ _ _ => rfl, fun _ _ => rfl,
    fun _ _ => rfl,
    fun _ _ => ⟨rfl, rfl⟩, fun _ => ⟨rfl, rfl⟩, fun _ _ => rfl, fun _ _ => rfl, fun _ _ => rfl,
    fun _ _ => rfl, fun _ _ _ => rfl, fun _ _ _ _ => rfl, fun _ _ _ _ => rfl, fun _ _ _ => rfl,
    fun _ _ _ => rfl, fun _ _ _ => rfl, fun _ _ => rfl, fun _ _ => rfl, fun _ _ _ => rfl⟩

end Sunjar
